import Mathlib

/-!
Verification of the calibre-sync-api reconciliation engine.

The filesystem is modelled as a finite association list from relative path
(String, with components separated by slashes) to file data (content bytes and
modification time).  Pure Lean translations of the Python services follow the
source structure: catalog building (`getFiles`), the per-file reconcile loop of
`SyncService.sync_folder` (`classify` / `step1` / `step2`), the multi-replica
orchestration (`sync_all`), the history service (`save_history`,
`add_sync_entry`, `get_history`, `get_stats`) and the trigger endpoint state
(`trigger_sync`).  File mutation failures (permission errors and the like) are
not injected: every copy and delete in the model succeeds, matching the
intended environment of the dry-run comparison claims.
-/

namespace CalibreSync

/-- Metadata of one regular file: its byte content and its modification time
(seconds since epoch; an integer timestamp, ordered and subtracted exactly as
the float of the source is).  The stat size is derived from the content. -/
structure FileMeta where
  content : List Nat
  mtime : Int
deriving DecidableEq

/-- The `size` field of a stat record: length of the file's content. -/
def FileMeta.size (m : FileMeta) : Nat := m.content.length

/-- A directory tree as an association list from relative path to file data,
listed in walk order.  Real trees have unique keys (filesystem paths are
unique); lemmas assume `Nodup` on the key list where that matters. -/
abbrev Tree := List (String × FileMeta)

/-- Characters after the last slash of a path (as `os.path.basename`). -/
def basenameChars (cs : List Char) : List Char :=
  (cs.reverse.takeWhile (fun c => c ≠ '/')).reverse

/-- Translation of `os.path.basename` for slash-separated relative paths. -/
def basename (p : String) : String :=
  String.mk (basenameChars p.toList)

/-- Extension (with dot) of a bare filename, as `os.path.splitext(p)[1]`:
the suffix from the last dot, unless every character before that dot is
itself a dot (so leading-dot names such as `.hidden` have no extension). -/
def fileExtChars (cs : List Char) : List Char :=
  let r := cs.reverse
  let a := r.takeWhile (fun c => c ≠ '.')
  let rest := r.dropWhile (fun c => c ≠ '.')
  if (rest.drop 1).any (fun c => c ≠ '.') then '.' :: a.reverse else []

/-- `os.path.splitext(filename)[1].lower()`. -/
def fileExtLower (name : String) : String :=
  String.mk ((fileExtChars name.toList).map Char.toLower)

/-- `filename.startswith('.')`: hidden files are skipped by both walks. -/
def isHiddenName (name : String) : Bool :=
  match name.toList with
  | [] => false
  | c :: _ => c == '.'

/-- The ignore test of `sync_folder` (line 148): extension `.db` or `.json`
after lowercasing, and the basename is not exactly `metadata.db`. -/
def isIgnoredName (filename : String) : Bool :=
  ((fileExtLower filename == ".db") || (fileExtLower filename == ".json"))
    && (filename != "metadata.db")

/-- Ignore test applied to a relative path via its basename. -/
def isIgnoredPath (rp : String) : Bool := isIgnoredName (basename rp)

/-- The protected Calibre system filenames of `sync_folder` (line 212). -/
def isProtectedName (name : String) : Bool :=
  name == "metadata.db" || name == "metadata_db_prefs_backup.json"

/-- Association-list lookup by key (first match), modelling dict lookup. -/
def alookup {α : Type} : List (String × α) → String → Option α
  | [], _ => none
  | e :: rest, k => if e.1 = k then some e.2 else alookup rest k

/-- Write a file at a path: replace the entry if the key is present, append
otherwise.  Models `shutil.copy2` creating or overwriting the destination. -/
def setFile (t : Tree) (k : String) (v : FileMeta) : Tree :=
  if t.any (fun e => e.1 == k) then
    t.map (fun e => if e.1 = k then (k, v) else e)
  else t ++ [(k, v)]

/-- Remove a file at a path, modelling `os.remove`. -/
def removeFile (t : Tree) (k : String) : Tree :=
  t.filter (fun e => !(e.1 == k))

/-- Catalog building (`get_calibre_files` / `get_replica_files`): every
non-hidden regular file keyed by relative path.  A missing root is the empty
tree, hence the empty catalog. -/
def getFiles (t : Tree) : Tree :=
  t.filter (fun e => !(isHiddenName (basename e.1)))

/-- The statistics dictionary of `sync_folder` (lines 123-136). -/
structure Stats where
  added : Nat := 0
  updated : Nat := 0
  deleted : Nat := 0
  unchanged : Nat := 0
  ignored : Nat := 0
  errors : Nat := 0
  added_files : List String := []
  updated_files : List String := []
  deleted_files : List String := []
  ignored_files : List String := []
  error_files : List String := []
deriving DecidableEq

/-- Initial statistics: all counts zero, all lists empty. -/
def statsInit : Stats := {}

/-- Models `calculate_file_hash` (a whole-file streaming MD5 digest).  The
digest is only ever compared for equality; it is modelled as the full content,
i.e. an injective digest. -/
def calculate_file_hash (content : List Nat) : List Nat := content

/-- Python `abs`, written out so that concrete runs reduce in the kernel. -/
def rabs (q : Int) : Int := if q < 0 then -q else q

/-- Classification of one source catalog entry, the branch structure of the
loop body of `sync_folder` (lines 141-205). -/
inductive Action where
  | ignored
  | add
  | update
  | unchanged
deriving DecidableEq

/-- The reconciler decision for one source entry against the destination
catalog: ignore test first, then presence, then the size / 1-second mtime
tolerance test, with the hash comparison as tie-break. -/
def classify (destFiles : Tree) (e : String × FileMeta) : Action :=
  if isIgnoredPath e.1 then .ignored
  else
    match alookup destFiles e.1 with
    | none => .add
    | some dm =>
      if e.2.size ≠ dm.size ∨ 1 < rabs (e.2.mtime - dm.mtime) then
        if calculate_file_hash e.2.content ≠ calculate_file_hash dm.content then
          .update
        else .unchanged
      else .unchanged

/-- One iteration of the source-file loop of `sync_folder` (lines 141-205),
acting on the statistics, the live destination tree, and the
`processed_dest_files` list.  In dry-run mode the tree is left untouched. -/
def step1 (destFiles : Tree) (dryRun : Bool)
    (acc : Stats × Tree × List String) (e : String × FileMeta) :
    Stats × Tree × List String :=
  match classify destFiles e with
  | .ignored =>
    ({ acc.1 with
        ignored := acc.1.ignored + 1
        ignored_files := acc.1.ignored_files ++ [e.1] }, acc.2.1, acc.2.2)
  | .add =>
    ({ acc.1 with
        added := acc.1.added + 1
        added_files := acc.1.added_files ++ [e.1] },
     if dryRun then acc.2.1 else setFile acc.2.1 e.1 e.2, acc.2.2 ++ [e.1])
  | .update =>
    ({ acc.1 with
        updated := acc.1.updated + 1
        updated_files := acc.1.updated_files ++ [e.1] },
     if dryRun then acc.2.1 else setFile acc.2.1 e.1 e.2, acc.2.2 ++ [e.1])
  | .unchanged =>
    ({ acc.1 with unchanged := acc.1.unchanged + 1 }, acc.2.1, acc.2.2 ++ [e.1])

/-- The deletion test of the second loop of `sync_folder` (lines 208-214):
the destination path was not processed and its basename is not protected. -/
def willDelete (processed : List String) (rp : String) : Bool :=
  decide (rp ∉ processed) && !(isProtectedName (basename rp))

/-- One iteration of the deletion loop of `sync_folder` (lines 208-229).
Note the source records the bare basename in `deleted_files` in dry-run mode
(line 228) but the relative path in a real run (line 220). -/
def step2 (processed : List String) (dryRun : Bool)
    (acc : Stats × Tree) (e : String × FileMeta) : Stats × Tree :=
  if willDelete processed e.1 then
    if dryRun then
      ({ acc.1 with
          deleted := acc.1.deleted + 1
          deleted_files := acc.1.deleted_files ++ [basename e.1] }, acc.2)
    else
      ({ acc.1 with
          deleted := acc.1.deleted + 1
          deleted_files := acc.1.deleted_files ++ [e.1] }, removeFile acc.2 e.1)
  else acc

/-- Translation of `SyncService.sync_folder`: build both catalogs, run the
source loop, then the deletion loop.  Returns the statistics and the resulting
destination tree. -/
def sync_folder (source dest : Tree) (dryRun : Bool) : Stats × Tree :=
  let sourceFiles := getFiles source
  let destFiles := getFiles dest
  let r1 := sourceFiles.foldl (step1 destFiles dryRun) (statsInit, dest, [])
  destFiles.foldl (step2 r1.2.2 dryRun) (r1.1, r1.2.1)

/-- One value of the `results` dictionary of `sync_all`: either the statistics
of a successful `sync_folder` call, or the error dictionary built from the
caught exception's message (line 243). -/
inductive ReplicaResult where
  | stats : Stats → ReplicaResult
  | failed : String → ReplicaResult
deriving DecidableEq

/-- Python dict assignment on a key-ordered association list: replace the
value if the key is present, append the pair otherwise. -/
def dictInsert (d : List (String × ReplicaResult)) (k : String)
    (v : ReplicaResult) : List (String × ReplicaResult) :=
  if d.any (fun e => e.1 == k) then
    d.map (fun e => if e.1 = k then (k, v) else e)
  else d ++ [(k, v)]

/-- The try/except body of `sync_all` for one replica: `run r` is the
`sync_folder` call on replica `r`, returning `Except.error msg` when that call
raises an exception with message `msg`. -/
def resultOf (run : String → Except String Stats) (r : String) : ReplicaResult :=
  match run r with
  | .ok s => .stats s
  | .error e => .failed e

/-- Translation of `SyncService.sync_all`: iterate the configured replica
paths in order, recording per replica either the statistics or the caught
error, in one results dictionary. -/
def sync_all (run : String → Except String Stats)
    (replicas : List String) : List (String × ReplicaResult) :=
  replicas.foldl (fun acc r => dictInsert acc r (resultOf run r)) []

/-- One persisted history record (`SyncHistoryEntry`).  The timestamp is an
abstract instant (Nat, ordered as datetimes are); `results`, `library_path`
and `replica_paths` are irrelevant to the claims and omitted. -/
structure SyncHistoryEntry where
  timestamp : Nat
  sync_type : String
  status : String
  duration : Rat
  error : Option String := none
deriving DecidableEq

/-- `SyncHistoryService.max_entries` (line 66). -/
def max_entries : Nat := 100

/-- Translation of `_save_history` (line 90): keep only the most recent
`max_entries` entries (`entries[-max_entries:]`); the atomic temp-file write
is the identity on the stored list. -/
def save_history (entries : List SyncHistoryEntry) : List SyncHistoryEntry :=
  if entries.length > max_entries then
    entries.drop (entries.length - max_entries)
  else entries

/-- Translation of `add_sync_entry`: load the store, append the new entry,
save (which applies the retention cap). -/
def add_sync_entry (store : List SyncHistoryEntry) (e : SyncHistoryEntry) :
    List SyncHistoryEntry :=
  save_history (store ++ [e])

/-- The most recent `n` elements of a list, in original order. -/
def lastN {α : Type} (n : Nat) (l : List α) : List α :=
  l.drop (l.length - n)

/-- The stable most-recent-first sort of `get_history` (line 147):
`entries.sort(key=timestamp, reverse=True)`. -/
def sortDesc (entries : List SyncHistoryEntry) : List SyncHistoryEntry :=
  entries.mergeSort (fun a b => decide (b.timestamp ≤ a.timestamp))

/-- Translation of `get_history` (lines 142-153): sort most-recent-first,
then `if limit:` — the slice is applied only when the limit is a nonzero
number, so `limit=0` (falsy) returns the whole sorted list. -/
def get_history (entries : List SyncHistoryEntry) (limit : Option Nat) :
    List SyncHistoryEntry :=
  let sorted := sortDesc entries
  match limit with
  | some n => if 0 < n then sorted.take n else sorted
  | none => sorted

/-- Round-half-to-even to an integer, the rounding mode of Python `round`. -/
def roundHalfEven (q : Rat) : Int :=
  if q - ⌊q⌋ < 1/2 then ⌊q⌋
  else if 1/2 < q - ⌊q⌋ then ⌊q⌋ + 1
  else if ⌊q⌋ % 2 = 0 then ⌊q⌋ else ⌊q⌋ + 1

/-- Python `round(x, 2)`: round to two decimal places, ties to even. -/
def round2 (q : Rat) : Rat := (roundHalfEven (q * 100) : Rat) / 100

/-- The dictionary returned by `get_stats` (lines 160-190). -/
structure HistoryStats where
  total_syncs : Nat
  successful_syncs : Nat
  failed_syncs : Nat
  last_sync : Option SyncHistoryEntry
  average_duration : Rat
deriving DecidableEq

/-- Translation of `get_stats`: counts by status, mean duration of completed
entries rounded to two decimals, and `max(entries, key=timestamp)` (which
keeps the first entry attaining the maximum). -/
def get_stats (entries : List SyncHistoryEntry) : HistoryStats :=
  match entries with
  | [] => ⟨0, 0, 0, none, 0⟩
  | e :: rest =>
    let all := e :: rest
    let successful := all.filter (fun x => x.status == "completed")
    let failed := all.filter (fun x => x.status == "failed")
    let avg : Rat :=
      if successful.length ≠ 0 then
        (successful.map (fun x => x.duration)).sum / (successful.length : Rat)
      else 0
    let latest := rest.foldl (fun acc x =>
      if acc.timestamp < x.timestamp then x else acc) e
    ⟨all.length, successful.length, failed.length, some latest, round2 avg⟩

/-- The exact mean duration over completed entries (zero when none exist),
stated from the spec's words for comparison with `get_stats`. -/
def completedMean (entries : List SyncHistoryEntry) : Rat :=
  let completed := entries.filter (fun x => x.status == "completed")
  if completed.length ≠ 0 then
    (completed.map (fun x => x.duration)).sum / (completed.length : Rat)
  else 0

/-- The module-level `sync_status` dictionary of the router (lines 15-20). -/
structure SyncStatus where
  last_sync : Option Nat
  in_progress : Bool
  result : Option (List (String × ReplicaResult))
  errors : Option String
deriving DecidableEq

/-- The `SyncResponse` model, restricted to the fields `trigger_sync` sets. -/
structure SyncResponse where
  status : String
  last_sync : Option Nat
deriving DecidableEq

/-- Translation of the `trigger_sync` handler (lines 82-98): on a busy flag,
answer `already_running` with the last completion timestamp and schedule
nothing; otherwise answer `started` and schedule one background run.  Returns
the response, the state as the handler leaves it, and whether
`background_tasks.add_task` was called. -/
def trigger_sync (st : SyncStatus) : SyncResponse × SyncStatus × Bool :=
  if st.in_progress then (⟨"already_running", st.last_sync⟩, st, false)
  else (⟨"started", st.last_sync⟩, st, true)

/-- Process-wide run-coordination state: the router state plus the number of
background tasks scheduled by `add_task` but not yet executing, and the
number of `perform_sync` invocations currently executing. -/
structure ProcState where
  status : SyncStatus
  pendingRuns : Nat
  activeRuns : Nat
deriving DecidableEq

/-- Events of the run coordinator: a trigger request handled to completion,
a scheduled background task beginning to execute `perform_sync`, and the
completion of an executing run at a given time. -/
inductive SyncEvent where
  | trigger
  | start
  | finish (completedAt : Nat)
deriving DecidableEq

/-- Transition system of the run coordinator as the code behaves: a trigger
on a busy flag changes nothing (lines 87-91); a trigger on a clear flag calls
`add_task` (line 93), scheduling one task without touching the flag — the
busy flag is raised only when the scheduled task later starts executing
`perform_sync` (line 37); a completing run records the timestamp and clears
the flag (lines 47 and 79). -/
def stepEvent (p : ProcState) (ev : SyncEvent) : ProcState :=
  match ev with
  | .trigger =>
    if p.status.in_progress then p
    else { p with pendingRuns := p.pendingRuns + 1 }
  | .start =>
    if p.pendingRuns = 0 then p
    else { status := { p.status with in_progress := true },
           pendingRuns := p.pendingRuns - 1,
           activeRuns := p.activeRuns + 1 }
  | .finish t =>
    if p.activeRuns = 0 then p
    else { status := { p.status with
             in_progress := false
             last_sync := some t },
           pendingRuns := p.pendingRuns,
           activeRuns := p.activeRuns - 1 }

/-- Initial process state: idle, nothing scheduled or run yet (router lines
15-20). -/
def procStateInit : ProcState := ⟨⟨none, false, none, none⟩, 0, 0⟩

/-- Prompt-start scheduling assumption: every trigger is handled only when no
run is scheduled-but-not-yet-started (each task raised the busy flag before
the next trigger was processed). -/
def promptStartB : ProcState → List SyncEvent → Bool
  | _, [] => true
  | p, ev :: rest =>
    (match ev with
     | SyncEvent.trigger => decide (p.pendingRuns = 0)
     | _ => true) && promptStartB (stepEvent p ev) rest

/-! ### Association-list lemmas -/

theorem alookup_some_mem {α : Type} {t : List (String × α)} {k : String}
    {v : α} (h : alookup t k = some v) : (k, v) ∈ t := by
  induction t with
  | nil => simp [alookup] at h
  | cons e rest ih =>
    rw [alookup] at h
    by_cases hk : e.1 = k
    · rw [if_pos hk] at h
      obtain ⟨e1, e2⟩ := e
      simp only at hk h
      obtain rfl := Option.some.inj h
      subst hk
      exact List.mem_cons_self _ _
    · rw [if_neg hk] at h
      exact List.mem_cons_of_mem _ (ih h)

theorem alookup_isSome_of_mem {α : Type} {t : List (String × α)} {k : String}
    {v : α} (h : (k, v) ∈ t) : alookup t k ≠ none := by
  induction t with
  | nil => simp at h
  | cons e rest ih =>
    rcases List.mem_cons.mp h with he | hr
    · subst he
      simp [alookup]
    · by_cases hk : e.1 = k
      · simp [alookup, hk]
      · simpa [alookup, hk] using ih hr

theorem alookup_eq_none_of_not_mem {α : Type} {t : List (String × α)}
    {k : String} (h : k ∉ t.map Prod.fst) : alookup t k = none := by
  induction t with
  | nil => rfl
  | cons e rest ih =>
    simp only [List.map_cons, List.mem_cons] at h
    push_neg at h
    rw [alookup, if_neg (fun hh => h.1 hh.symm), ih h.2]

theorem alookup_filterKeys {α : Type} (p : String → Bool)
    (t : List (String × α)) (k : String) :
    alookup (t.filter (fun e => p e.1)) k =
      if p k then alookup t k else none := by
  induction t with
  | nil => simp [alookup]
  | cons e rest ih =>
    by_cases hk : e.1 = k
    · subst hk
      by_cases hp : p e.1
      · simp [List.filter_cons, hp, alookup, ih]
      · simp only [Bool.not_eq_true] at hp
        simp [List.filter_cons, hp, alookup, ih]
    · by_cases hp : p e.1
      · simp [List.filter_cons, hp, alookup, hk, ih]
      · simp only [Bool.not_eq_true] at hp
        simp [List.filter_cons, hp, alookup, hk, ih]

theorem alookup_append {α : Type} (t1 t2 : List (String × α)) (k : String) :
    alookup (t1 ++ t2) k =
      match alookup t1 k with
      | some v => some v
      | none => alookup t2 k := by
  induction t1 with
  | nil => simp [alookup]
  | cons e rest ih =>
    by_cases hk : e.1 = k
    · simp [alookup, hk]
    · simp only [List.cons_append, alookup, if_neg hk]
      exact ih

theorem alookup_replaceMap_self {α : Type} (t : List (String × α))
    (k : String) (v : α) (h : ∃ e ∈ t, e.1 = k) :
    alookup (t.map (fun e => if e.1 = k then (k, v) else e)) k = some v := by
  induction t with
  | nil => simp at h
  | cons e rest ih =>
    by_cases hk : e.1 = k
    · simp [alookup, hk]
    · obtain ⟨e0, he0, hk0⟩ := h
      rcases List.mem_cons.mp he0 with rfl | hmem
      · exact absurd hk0 hk
      · simp only [List.map_cons, if_neg hk, alookup, if_neg hk]
        exact ih ⟨e0, hmem, hk0⟩

theorem alookup_replaceMap_ne {α : Type} (t : List (String × α))
    (k k' : String) (v : α) (h : k' ≠ k) :
    alookup (t.map (fun e => if e.1 = k then (k, v) else e)) k' =
      alookup t k' := by
  induction t with
  | nil => rfl
  | cons e rest ih =>
    by_cases hk : e.1 = k
    · simp only [List.map_cons, if_pos hk, alookup]
      rw [if_neg (fun hc => h hc.symm), if_neg (hk ▸ fun hc => h hc.symm), ih]
    · simp only [List.map_cons, if_neg hk, alookup]
      by_cases hk' : e.1 = k'
      · simp [hk']
      · rw [if_neg hk', if_neg hk', ih]

theorem alookup_setFile_self (t : Tree) (k : String) (v : FileMeta) :
    alookup (setFile t k v) k = some v := by
  unfold setFile
  by_cases hany : t.any (fun e => e.1 == k)
  · rw [if_pos hany]
    rw [List.any_eq_true] at hany
    obtain ⟨e0, he0, hk0⟩ := hany
    exact alookup_replaceMap_self t k v ⟨e0, he0, beq_iff_eq.mp hk0⟩
  · rw [if_neg hany]
    rw [alookup_append]
    have hnone : alookup t k = none := by
      apply alookup_eq_none_of_not_mem
      intro hmem
      apply hany
      rw [List.any_eq_true]
      obtain ⟨e0, he0, hk0⟩ := List.mem_map.mp hmem
      exact ⟨e0, he0, beq_iff_eq.mpr hk0⟩
    rw [hnone]
    simp [alookup]

theorem alookup_setFile_ne (t : Tree) (k k' : String) (v : FileMeta)
    (h : k' ≠ k) : alookup (setFile t k v) k' = alookup t k' := by
  unfold setFile
  by_cases hany : t.any (fun e => e.1 == k)
  · rw [if_pos hany]
    exact alookup_replaceMap_ne t k k' v h
  · rw [if_neg hany, alookup_append]
    cases hl : alookup t k' with
    | some v0 => simp
    | none =>
      have hkk : ¬ (k = k') := fun hc => h hc.symm
      simp [alookup, hkk]

theorem alookup_removeFile_self (t : Tree) (k : String) :
    alookup (removeFile t k) k = none := by
  unfold removeFile
  rw [alookup_filterKeys (fun s => !(s == k))]
  simp

theorem alookup_removeFile_ne (t : Tree) (k k' : String) (h : k' ≠ k) :
    alookup (removeFile t k) k' = alookup t k' := by
  unfold removeFile
  rw [alookup_filterKeys (fun s => !(s == k))]
  simp [h]

theorem alookup_getFiles (t : Tree) (k : String) :
    alookup (getFiles t) k =
      if isHiddenName (basename k) then none else alookup t k := by
  unfold getFiles
  rw [alookup_filterKeys (fun s => !(isHiddenName (basename s)))]
  by_cases h : isHiddenName (basename k) <;> simp [h]

/-! ### Path-string lemmas -/

theorem basenameChars_no_slash (cs : List Char) :
    ∀ c ∈ basenameChars cs, c ≠ '/' := by
  intro c hc
  unfold basenameChars at hc
  rw [List.mem_reverse] at hc
  have := List.mem_takeWhile_imp hc
  simpa using this

theorem basenameChars_of_no_slash (cs : List Char)
    (h : ∀ c ∈ cs, c ≠ '/') : basenameChars cs = cs := by
  unfold basenameChars
  have ht : cs.reverse.takeWhile (fun c => decide (c ≠ '/')) = cs.reverse := by
    rw [List.takeWhile_eq_self_iff]
    intro x hx
    simp only [decide_eq_true_eq]
    exact h x (List.mem_reverse.mp hx)
  rw [ht, List.reverse_reverse]

theorem basename_basename (p : String) : basename (basename p) = basename p := by
  unfold basename
  have : (String.mk (basenameChars p.toList)).toList = basenameChars p.toList := rfl
  rw [this, basenameChars_of_no_slash _ (basenameChars_no_slash p.toList)]

/-! ### Classification lemmas -/

theorem classify_eq_ignored_iff (df : Tree) (e : String × FileMeta) :
    classify df e = Action.ignored ↔ isIgnoredPath e.1 = true := by
  by_cases h : isIgnoredPath e.1
  · simp [classify, h]
  · simp only [classify, h, Bool.false_eq_true, iff_false, if_neg]
    cases halk : alookup df e.1 with
    | none => simp
    | some dm =>
      by_cases hm : e.2.size ≠ dm.size ∨ 1 < rabs (e.2.mtime - dm.mtime)
      · by_cases hh : calculate_file_hash e.2.content ≠ calculate_file_hash dm.content
        · simp [hm, hh]
        · simp [hm, hh]
      · simp [hm]

/-! ### Source-loop (phase 1) fold lemmas -/

theorem foldl_step1_stats (df : Tree) (dr : Bool) (l : List (String × FileMeta))
    (st : Stats) (d : Tree) (p : List String) :
    (l.foldl (step1 df dr) (st, d, p)).1 =
    { st with
      added := st.added + l.countP (fun e => classify df e == Action.add)
      updated := st.updated + l.countP (fun e => classify df e == Action.update)
      unchanged := st.unchanged + l.countP (fun e => classify df e == Action.unchanged)
      ignored := st.ignored + l.countP (fun e => classify df e == Action.ignored)
      added_files := st.added_files ++
        (l.filter (fun e => classify df e == Action.add)).map Prod.fst
      updated_files := st.updated_files ++
        (l.filter (fun e => classify df e == Action.update)).map Prod.fst
      ignored_files := st.ignored_files ++
        (l.filter (fun e => classify df e == Action.ignored)).map Prod.fst } := by
  induction l generalizing st d p with
  | nil => simp
  | cons e rest ih =>
    rw [List.foldl_cons]
    cases hc : classify df e with
    | ignored =>
      have hstep : step1 df dr (st, d, p) e =
          ({ st with
              ignored := st.ignored + 1
              ignored_files := st.ignored_files ++ [e.1] }, d, p) := by
        simp [step1, hc]
      rw [hstep, ih]
      simp [List.countP_cons, List.filter_cons, hc, List.append_assoc]
      omega
    | add =>
      have hstep : step1 df dr (st, d, p) e =
          ({ st with
              added := st.added + 1
              added_files := st.added_files ++ [e.1] },
           if dr then d else setFile d e.1 e.2, p ++ [e.1]) := by
        simp [step1, hc]
      rw [hstep, ih]
      simp [List.countP_cons, List.filter_cons, hc, List.append_assoc]
      omega
    | update =>
      have hstep : step1 df dr (st, d, p) e =
          ({ st with
              updated := st.updated + 1
              updated_files := st.updated_files ++ [e.1] },
           if dr then d else setFile d e.1 e.2, p ++ [e.1]) := by
        simp [step1, hc]
      rw [hstep, ih]
      simp [List.countP_cons, List.filter_cons, hc, List.append_assoc]
      omega
    | unchanged =>
      have hstep : step1 df dr (st, d, p) e =
          ({ st with unchanged := st.unchanged + 1 }, d, p ++ [e.1]) := by
        simp [step1, hc]
      rw [hstep, ih]
      simp [List.countP_cons, List.filter_cons, hc, List.append_assoc]
      omega

theorem foldl_step1_processed (df : Tree) (dr : Bool)
    (l : List (String × FileMeta)) (st : Stats) (d : Tree) (p : List String) :
    (l.foldl (step1 df dr) (st, d, p)).2.2 =
      p ++ (l.filter (fun e => !(isIgnoredPath e.1))).map Prod.fst := by
  induction l generalizing st d p with
  | nil => simp
  | cons e rest ih =>
    rw [List.foldl_cons]
    cases hc : classify df e with
    | ignored =>
      have hig : isIgnoredPath e.1 = true := (classify_eq_ignored_iff df e).mp hc
      have hstep : (step1 df dr (st, d, p) e).2.2 = p := by simp [step1, hc]
      rcases hs : step1 df dr (st, d, p) e with ⟨st', d', p'⟩
      rw [hs] at hstep
      simp only at hstep
      subst hstep
      rw [ih]
      simp [List.filter_cons, hig]
    | add =>
      have hstep : (step1 df dr (st, d, p) e).2.2 = p ++ [e.1] := by simp [step1, hc]
      have hig : isIgnoredPath e.1 = false := by
        rcases hb : isIgnoredPath e.1 with _ | _
        · rfl
        · exact absurd ((classify_eq_ignored_iff df e).mpr hb) (by simp [hc])
      rcases hs : step1 df dr (st, d, p) e with ⟨st', d', p'⟩
      rw [hs] at hstep
      simp only at hstep
      subst hstep
      rw [ih]
      simp [List.filter_cons, hig, List.append_assoc]
    | update =>
      have hstep : (step1 df dr (st, d, p) e).2.2 = p ++ [e.1] := by simp [step1, hc]
      have hig : isIgnoredPath e.1 = false := by
        rcases hb : isIgnoredPath e.1 with _ | _
        · rfl
        · exact absurd ((classify_eq_ignored_iff df e).mpr hb) (by simp [hc])
      rcases hs : step1 df dr (st, d, p) e with ⟨st', d', p'⟩
      rw [hs] at hstep
      simp only at hstep
      subst hstep
      rw [ih]
      simp [List.filter_cons, hig, List.append_assoc]
    | unchanged =>
      have hstep : (step1 df dr (st, d, p) e).2.2 = p ++ [e.1] := by simp [step1, hc]
      have hig : isIgnoredPath e.1 = false := by
        rcases hb : isIgnoredPath e.1 with _ | _
        · rfl
        · exact absurd ((classify_eq_ignored_iff df e).mpr hb) (by simp [hc])
      rcases hs : step1 df dr (st, d, p) e with ⟨st', d', p'⟩
      rw [hs] at hstep
      simp only at hstep
      subst hstep
      rw [ih]
      simp [List.filter_cons, hig, List.append_assoc]

theorem foldl_step1_tree_dry (df : Tree) (l : List (String × FileMeta))
    (st : Stats) (d : Tree) (p : List String) :
    (l.foldl (step1 df true) (st, d, p)).2.1 = d := by
  induction l generalizing st d p with
  | nil => rfl
  | cons e rest ih =>
    rw [List.foldl_cons]
    cases hc : classify df e with
    | ignored =>
      have hstep : (step1 df true (st, d, p) e).2.1 = d := by simp [step1, hc]
      rcases hs : step1 df true (st, d, p) e with ⟨st', d', p'⟩
      rw [hs] at hstep
      simp only at hstep
      subst hstep
      exact ih st' _ p'
    | add =>
      have hstep : (step1 df true (st, d, p) e).2.1 = d := by simp [step1, hc]
      rcases hs : step1 df true (st, d, p) e with ⟨st', d', p'⟩
      rw [hs] at hstep
      simp only at hstep
      subst hstep
      exact ih st' _ p'
    | update =>
      have hstep : (step1 df true (st, d, p) e).2.1 = d := by simp [step1, hc]
      rcases hs : step1 df true (st, d, p) e with ⟨st', d', p'⟩
      rw [hs] at hstep
      simp only at hstep
      subst hstep
      exact ih st' _ p'
    | unchanged =>
      have hstep : (step1 df true (st, d, p) e).2.1 = d := by simp [step1, hc]
      rcases hs : step1 df true (st, d, p) e with ⟨st', d', p'⟩
      rw [hs] at hstep
      simp only at hstep
      subst hstep
      exact ih st' _ p'

theorem step1_lookup_ne (df : Tree) (dr : Bool) (acc : Stats × Tree × List String)
    (e : String × FileMeta) (k : String) (h : e.1 ≠ k) :
    alookup (step1 df dr acc e).2.1 k = alookup acc.2.1 k := by
  cases hc : classify df e with
  | ignored => simp [step1, hc]
  | add =>
    simp only [step1, hc]
    cases dr with
    | true => simp
    | false => simp [alookup_setFile_ne _ _ _ _ (fun hk => h hk.symm)]
  | update =>
    simp only [step1, hc]
    cases dr with
    | true => simp
    | false => simp [alookup_setFile_ne _ _ _ _ (fun hk => h hk.symm)]
  | unchanged => simp [step1, hc]

theorem foldl_step1_lookup_not_mem (df : Tree) (dr : Bool)
    (l : List (String × FileMeta)) (st : Stats) (d : Tree) (p : List String)
    (k : String) (h : k ∉ l.map Prod.fst) :
    alookup (l.foldl (step1 df dr) (st, d, p)).2.1 k = alookup d k := by
  induction l generalizing st d p with
  | nil => rfl
  | cons e rest ih =>
    simp only [List.map_cons, List.mem_cons] at h
    push_neg at h
    rw [List.foldl_cons]
    rcases hs : step1 df dr (st, d, p) e with ⟨st', d', p'⟩
    have hd' : alookup d' k = alookup d k := by
      have := step1_lookup_ne df dr (st, d, p) e k (fun hk => h.1 hk.symm)
      rw [hs] at this
      exact this
    rw [ih st' d' p' h.2, hd']

/-! ### Deletion-loop (phase 2) fold lemmas -/

theorem foldl_step2_stats (proc : List String) (dr : Bool)
    (l : List (String × FileMeta)) (st : Stats) (d : Tree) :
    (l.foldl (step2 proc dr) (st, d)).1 =
    { st with
      deleted := st.deleted + l.countP (fun e => willDelete proc e.1)
      deleted_files := st.deleted_files ++
        (l.filter (fun e => willDelete proc e.1)).map
          (fun e => if dr then basename e.1 else e.1) } := by
  induction l generalizing st d with
  | nil => simp
  | cons e rest ih =>
    rw [List.foldl_cons]
    by_cases hw : willDelete proc e.1
    · cases dr with
      | true =>
        have hstep : step2 proc true (st, d) e =
            ({ st with
                deleted := st.deleted + 1
                deleted_files := st.deleted_files ++ [basename e.1] }, d) := by
          simp [step2, hw]
        rw [hstep, ih]
        simp [List.countP_cons, List.filter_cons, hw, List.append_assoc]
        omega
      | false =>
        have hstep : step2 proc false (st, d) e =
            ({ st with
                deleted := st.deleted + 1
                deleted_files := st.deleted_files ++ [e.1] }, removeFile d e.1) := by
          simp [step2, hw]
        rw [hstep, ih]
        simp [List.countP_cons, List.filter_cons, hw, List.append_assoc]
        omega
    · have hstep : step2 proc dr (st, d) e = (st, d) := by
        simp [step2, hw]
      rw [hstep, ih]
      simp [List.countP_cons, List.filter_cons, hw]

theorem foldl_step2_tree_dry (proc : List String)
    (l : List (String × FileMeta)) (st : Stats) (d : Tree) :
    (l.foldl (step2 proc true) (st, d)).2 = d := by
  induction l generalizing st d with
  | nil => rfl
  | cons e rest ih =>
    rw [List.foldl_cons]
    by_cases hw : willDelete proc e.1
    · have hstep : (step2 proc true (st, d) e).2 = d := by simp [step2, hw]
      rcases hs : step2 proc true (st, d) e with ⟨st2, d2⟩
      rw [hs] at hstep
      simp only at hstep
      subst hstep
      exact ih st2 _
    · have hstep : step2 proc true (st, d) e = (st, d) := by simp [step2, hw]
      rw [hstep]
      exact ih st d

theorem foldl_step2_lookup_preserved (proc : List String) (dr : Bool)
    (l : List (String × FileMeta)) (st : Stats) (d : Tree) (k : String)
    (h : willDelete proc k = false) :
    alookup (l.foldl (step2 proc dr) (st, d)).2 k = alookup d k := by
  induction l generalizing st d with
  | nil => rfl
  | cons e rest ih =>
    rw [List.foldl_cons]
    by_cases hw : willDelete proc e.1
    · have hek : e.1 ≠ k := by
        intro hc
        rw [hc] at hw
        rw [hw] at h
        exact Bool.true_eq_false.mp h
      cases dr with
      | true =>
        have hstep : (step2 proc true (st, d) e).2 = d := by simp [step2, hw]
        rcases hs : step2 proc true (st, d) e with ⟨st2, d2⟩
        rw [hs] at hstep
        simp only at hstep
        subst hstep
        exact ih st2 _
      | false =>
        have hstep : (step2 proc false (st, d) e).2 = removeFile d e.1 := by
          simp [step2, hw]
        rcases hs : step2 proc false (st, d) e with ⟨st2, d2⟩
        rw [hs] at hstep
        simp only at hstep
        subst hstep
        rw [ih st2 _, alookup_removeFile_ne d e.1 k (fun hc => hek hc.symm)]
    · have hstep : step2 proc dr (st, d) e = (st, d) := by simp [step2, hw]
      rw [hstep]
      exact ih st d

theorem foldl_step2_lookup_none_mono (proc : List String) (dr : Bool)
    (l : List (String × FileMeta)) (st : Stats) (d : Tree) (k : String)
    (h : alookup d k = none) :
    alookup (l.foldl (step2 proc dr) (st, d)).2 k = none := by
  induction l generalizing st d with
  | nil => exact h
  | cons e rest ih =>
    rw [List.foldl_cons]
    by_cases hw : willDelete proc e.1
    · cases dr with
      | true =>
        have hstep : (step2 proc true (st, d) e).2 = d := by simp [step2, hw]
        rcases hs : step2 proc true (st, d) e with ⟨st2, d2⟩
        rw [hs] at hstep
        simp only at hstep
        subst hstep
        exact ih st2 _ h
      | false =>
        have hstep : (step2 proc false (st, d) e).2 = removeFile d e.1 := by
          simp [step2, hw]
        rcases hs : step2 proc false (st, d) e with ⟨st2, d2⟩
        rw [hs] at hstep
        simp only at hstep
        subst hstep
        apply ih st2
        by_cases hek : e.1 = k
        · rw [← hek, alookup_removeFile_self]
        · rw [alookup_removeFile_ne d e.1 k (fun hc => hek hc.symm)]
          exact h
    · have hstep : step2 proc dr (st, d) e = (st, d) := by simp [step2, hw]
      rw [hstep]
      exact ih st d h

theorem foldl_step2_lookup_none (proc : List String)
    (l : List (String × FileMeta)) (st : Stats) (d : Tree) (k : String)
    (hw : willDelete proc k = true) (hm : k ∈ l.map Prod.fst) :
    alookup (l.foldl (step2 proc false) (st, d)).2 k = none := by
  induction l generalizing st d with
  | nil => simp at hm
  | cons e rest ih =>
    rw [List.foldl_cons]
    by_cases hek : e.1 = k
    · have hwe : willDelete proc e.1 = true := by rw [hek]; exact hw
      have hstep : (step2 proc false (st, d) e).2 = removeFile d e.1 := by
        simp [step2, hwe]
      rcases hs : step2 proc false (st, d) e with ⟨st2, d2⟩
      rw [hs] at hstep
      simp only at hstep
      subst hstep
      apply foldl_step2_lookup_none_mono
      rw [← hek, alookup_removeFile_self]
    · simp only [List.map_cons, List.mem_cons] at hm
      rcases hm with hm | hm
      · exact absurd hm.symm hek
      · rcases hs : step2 proc false (st, d) e with ⟨st2, d2⟩
        exact ih st2 d2 hm

/-- Per-key effect of the source loop on the destination tree, for a key that
occurs in the (duplicate-free) source catalog: the key ends up holding the
source file when the entry is classified `add` or `update` in a real run, and
is untouched otherwise. -/
theorem foldl_step1_lookup_mem (df : Tree) (dr : Bool)
    (l : List (String × FileMeta)) (st : Stats) (d : Tree) (p : List String)
    (rp : String) (sm : FileMeta) (hmem : (rp, sm) ∈ l)
    (hnd : (l.map Prod.fst).Nodup) :
    alookup (l.foldl (step1 df dr) (st, d, p)).2.1 rp =
      if dr = false ∧ (classify df (rp, sm) = Action.add ∨
          classify df (rp, sm) = Action.update)
      then some sm else alookup d rp := by
  induction l generalizing st d p with
  | nil => simp at hmem
  | cons e rest ih =>
    rw [List.map_cons, List.nodup_cons] at hnd
    rcases List.mem_cons.mp hmem with he | hr
    · subst he
      have hrp : rp ∉ rest.map Prod.fst := by simpa using hnd.1
      rw [List.foldl_cons]
      cases hc : classify df (rp, sm) with
      | ignored =>
        have hstep : (step1 df dr (st, d, p) (rp, sm)).2.1 = d := by
          simp [step1, hc]
        rcases hs : step1 df dr (st, d, p) (rp, sm) with ⟨st2, d2, p2⟩
        rw [hs] at hstep
        simp only at hstep
        subst hstep
        rw [foldl_step1_lookup_not_mem df dr rest st2 _ p2 rp hrp]
        simp [hc]
      | add =>
        have hstep : (step1 df dr (st, d, p) (rp, sm)).2.1 =
            if dr then d else setFile d rp sm := by
          simp [step1, hc]
        rcases hs : step1 df dr (st, d, p) (rp, sm) with ⟨st2, d2, p2⟩
        rw [hs] at hstep
        simp only at hstep
        subst hstep
        rw [foldl_step1_lookup_not_mem df dr rest st2 _ p2 rp hrp]
        cases dr with
        | true => simp
        | false => simp [alookup_setFile_self]
      | update =>
        have hstep : (step1 df dr (st, d, p) (rp, sm)).2.1 =
            if dr then d else setFile d rp sm := by
          simp [step1, hc]
        rcases hs : step1 df dr (st, d, p) (rp, sm) with ⟨st2, d2, p2⟩
        rw [hs] at hstep
        simp only at hstep
        subst hstep
        rw [foldl_step1_lookup_not_mem df dr rest st2 _ p2 rp hrp]
        cases dr with
        | true => simp
        | false => simp [alookup_setFile_self]
      | unchanged =>
        have hstep : (step1 df dr (st, d, p) (rp, sm)).2.1 = d := by
          simp [step1, hc]
        rcases hs : step1 df dr (st, d, p) (rp, sm) with ⟨st2, d2, p2⟩
        rw [hs] at hstep
        simp only at hstep
        subst hstep
        rw [foldl_step1_lookup_not_mem df dr rest st2 _ p2 rp hrp]
        simp [hc]
    · have hek : e.1 ≠ rp := by
        intro hc
        apply hnd.1
        rw [hc]
        exact List.mem_map.mpr ⟨(rp, sm), hr, rfl⟩
      rw [List.foldl_cons]
      rcases hs : step1 df dr (st, d, p) e with ⟨st2, d2, p2⟩
      have hd2 : alookup d2 rp = alookup d rp := by
        have := step1_lookup_ne df dr (st, d, p) e rp hek
        rw [hs] at this
        exact this
      rw [ih st2 d2 p2 hr hnd.2, hd2]

/-- Partition counting: when every element satisfies exactly one of two
predicates, their counts add up to the length. -/
theorem countP_partition {α : Type} (l : List α) (p q : α → Bool)
    (h : ∀ e ∈ l, (p e = true ∧ q e = false) ∨ (p e = false ∧ q e = true)) :
    l.countP p + l.countP q = l.length := by
  induction l with
  | nil => simp
  | cons e rest ih =>
    have hrest := ih (fun x hx => h x (List.mem_cons_of_mem _ hx))
    rcases h e (List.mem_cons_self e rest) with ⟨hp, hq⟩ | ⟨hp, hq⟩ <;>
      simp [List.countP_cons, hp, hq] <;> omega

/-- Unfolding of `sync_folder` into its two folds. -/
theorem sync_folder_eq (source dest : Tree) (dr : Bool) :
    sync_folder source dest dr =
      (getFiles dest).foldl
        (step2 ((getFiles source).foldl (step1 (getFiles dest) dr)
          (statsInit, dest, [])).2.2 dr)
        (((getFiles source).foldl (step1 (getFiles dest) dr)
          (statsInit, dest, [])).1,
         ((getFiles source).foldl (step1 (getFiles dest) dr)
          (statsInit, dest, [])).2.1) := rfl

/-- In a duplicate-free association list a key determines its value. -/
theorem nodup_keys_eq {α : Type} {l : List (String × α)} {k : String}
    {v v' : α} (hnd : (l.map Prod.fst).Nodup) (h1 : (k, v) ∈ l)
    (h2 : (k, v') ∈ l) : v = v' := by
  induction l with
  | nil => simp at h1
  | cons e rest ih =>
    rw [List.map_cons, List.nodup_cons] at hnd
    rcases List.mem_cons.mp h1 with he1 | hr1 <;>
      rcases List.mem_cons.mp h2 with he2 | hr2
    · rw [← he1] at he2
      exact (Prod.mk.injEq _ _ _ _).mp he2.symm |>.2
    · exfalso
      apply hnd.1
      rw [← he1]
      exact List.mem_map.mpr ⟨(k, v'), hr2, rfl⟩
    · exfalso
      apply hnd.1
      rw [← he2]
      exact List.mem_map.mpr ⟨(k, v), hr1, rfl⟩
    · exact ih hnd.2 hr1 hr2

/-- C1: amended dry-run refinement.  A dry run leaves the destination tree
untouched, and produces the same counts and the same added / updated /
ignored / error file lists as a real run from the same initial state; its
`deleted_files` list holds the basenames of the paths the real run deletes
(the one divergence, source lines 220 vs 228). -/
theorem c1_dry_run_refinement (source dest : Tree) :
    (sync_folder source dest true).2 = dest ∧
    (sync_folder source dest true).1.added = (sync_folder source dest false).1.added ∧
    (sync_folder source dest true).1.updated = (sync_folder source dest false).1.updated ∧
    (sync_folder source dest true).1.deleted = (sync_folder source dest false).1.deleted ∧
    (sync_folder source dest true).1.unchanged = (sync_folder source dest false).1.unchanged ∧
    (sync_folder source dest true).1.ignored = (sync_folder source dest false).1.ignored ∧
    (sync_folder source dest true).1.errors = (sync_folder source dest false).1.errors ∧
    (sync_folder source dest true).1.added_files = (sync_folder source dest false).1.added_files ∧
    (sync_folder source dest true).1.updated_files = (sync_folder source dest false).1.updated_files ∧
    (sync_folder source dest true).1.ignored_files = (sync_folder source dest false).1.ignored_files ∧
    (sync_folder source dest true).1.error_files = (sync_folder source dest false).1.error_files ∧
    (sync_folder source dest true).1.deleted_files =
      ((sync_folder source dest false).1.deleted_files).map basename := by
  simp only [sync_folder_eq, foldl_step1_processed, foldl_step1_tree_dry,
    foldl_step2_tree_dry, foldl_step1_stats, foldl_step2_stats]
  simp [statsInit, List.map_map, Function.comp]

/-- C1 counterexample destination: one orphan file inside a subdirectory. -/
def c1dest : Tree := [("book2/book2.epub", ⟨[0], 0⟩)]

/-- C1 counterexample: against the claim, the dry-run statistics are not
identical to the real run's from the same state — the dry run records the
basename in `deleted_files` where the real run records the relative path
(and no attempted-operation outcome is involved: the real run deletes the
file successfully). -/
theorem c1_counterexample_check :
    (sync_folder [] c1dest true).1.deleted_files = ["book2.epub"] ∧
    (sync_folder [] c1dest false).1.deleted_files = ["book2/book2.epub"] ∧
    (sync_folder [] c1dest true).1 ≠ (sync_folder [] c1dest false).1 := by
  refine ⟨?_, ?_, ?_⟩ <;> decide

/-- C2: amended hash-fallback correctness.  For a relative path present in
both catalogs whose records have identical content (hence identical size) and
modified times differing by more than one second, and which is not excluded by
the ignore rule, `sync_folder` classifies the path as unchanged (the unchanged
count is incremented), does not list it as updated, and leaves the destination
file untouched. -/
theorem c2_hash_fallback (source dest : Tree) (dr : Bool) (rp : String)
    (sm dm : FileMeta)
    (hs : alookup (getFiles source) rp = some sm)
    (hd : alookup (getFiles dest) rp = some dm)
    (hnd : ((getFiles source).map Prod.fst).Nodup)
    (hcontent : sm.content = dm.content)
    (hmt : 1 < rabs (sm.mtime - dm.mtime))
    (hni : isIgnoredPath rp = false) :
    1 ≤ (sync_folder source dest dr).1.unchanged ∧
    rp ∉ (sync_folder source dest dr).1.updated_files ∧
    alookup (sync_folder source dest dr).2 rp = some dm := by
  have hmem : (rp, sm) ∈ getFiles source := alookup_some_mem hs
  have hclass : classify (getFiles dest) (rp, sm) = Action.unchanged := by
    simp [classify, hni, hd, calculate_file_hash, hcontent, hmt]
  have hdest : alookup dest rp = some dm := by
    rw [alookup_getFiles] at hd
    by_cases hh : isHiddenName (basename rp)
    · rw [if_pos hh] at hd
      exact absurd hd (by simp)
    · rwa [if_neg hh] at hd
  have hproc : rp ∈ ((getFiles source).foldl (step1 (getFiles dest) dr)
      (statsInit, dest, [])).2.2 := by
    rw [foldl_step1_processed]
    refine List.mem_append.mpr (Or.inr ?_)
    exact List.mem_map.mpr ⟨(rp, sm),
      List.mem_filter.mpr ⟨hmem, by simp [hni]⟩, rfl⟩
  have hnotin : ∀ x ∈ ((getFiles source).filter
      (fun e => classify (getFiles dest) e == Action.update)).map Prod.fst,
      x ≠ rp := by
    intro x hx hxrp
    obtain ⟨m, hmf, hfst⟩ := List.mem_map.mp hx
    obtain ⟨hml, hcl⟩ := List.mem_filter.mp hmf
    rw [beq_iff_eq] at hcl
    have hmeta : (rp, m.2) ∈ getFiles source := by
      have hm : m = (rp, m.2) := by
        rw [Prod.ext_iff]
        exact ⟨by rw [hfst, hxrp], rfl⟩
      rw [← hm]
      exact hml
    have heq : m.2 = sm := nodup_keys_eq hnd hmeta hmem
    have hm2 : m = (rp, sm) := by
      rw [Prod.ext_iff]
      exact ⟨by rw [hfst, hxrp], heq⟩
    rw [hm2, hclass] at hcl
    exact absurd hcl (by simp)
  refine ⟨?_, ?_, ?_⟩
  · rw [sync_folder_eq, foldl_step2_stats, foldl_step1_stats]
    have hpos : 0 < ((getFiles source).filter
        (fun e => classify (getFiles dest) e == Action.unchanged)).length :=
      List.length_pos.mpr (List.ne_nil_of_mem
        (List.mem_filter.mpr ⟨hmem, by simp [hclass]⟩))
    show 1 ≤ statsInit.unchanged + (getFiles source).countP
      (fun e => classify (getFiles dest) e == Action.unchanged)
    rw [List.countP_eq_length_filter]
    have h0 : statsInit.unchanged = 0 := rfl
    omega
  · rw [sync_folder_eq, foldl_step2_stats, foldl_step1_stats]
    intro hin
    exact hnotin rp hin rfl
  · rw [sync_folder_eq]
    have h1 : alookup (((getFiles source).foldl (step1 (getFiles dest) dr)
        (statsInit, dest, [])).2.1) rp = some dm := by
      rw [foldl_step1_lookup_mem (getFiles dest) dr (getFiles source)
        statsInit dest [] rp sm hmem hnd]
      simp [hclass, hdest]
    have hwd : willDelete (((getFiles source).foldl (step1 (getFiles dest) dr)
        (statsInit, dest, [])).2.2) rp = false := by
      unfold willDelete
      simp [hproc]
    rw [foldl_step2_lookup_preserved _ _ _ _ _ _ hwd]
    exact h1

/-- C2 counterexample source tree -/
def c2source : Tree := [("a.json", ⟨[0], 0⟩)]

/-- C2 counterexample destination tree -/
def c2dest : Tree := [("a.json", ⟨[0], 3⟩)]

/-- C2 counterexample: against the claim as stated, a path with an ignored
extension (`a.json`) present in both catalogs with identical content and
mtimes three seconds apart is classified ignored, not unchanged — the
unchanged count stays zero. -/
theorem c2_counterexample_check :
    alookup (getFiles c2source) "a.json" = some ⟨[0], 0⟩ ∧
    alookup (getFiles c2dest) "a.json" = some ⟨[0], 3⟩ ∧
    (⟨[0], (0 : Int)⟩ : FileMeta).size = (⟨[0], (3 : Int)⟩ : FileMeta).size ∧
    (1 : Int) < rabs ((0 : Int) - 3) ∧
    (sync_folder c2source c2dest false).1.unchanged = 0 ∧
    (sync_folder c2source c2dest false).1.ignored = 1 := by
  refine ⟨?_, ?_, ?_, ?_, ?_, ?_⟩ <;> decide

/-- C2 witness: the amended theorem applied to a concrete pair of trees whose
only file has equal content and mtimes five seconds apart. -/
theorem c2_witness :
    1 ≤ (sync_folder [("a.txt", ⟨[7], 0⟩)] [("a.txt", ⟨[7], 5⟩)] false).1.unchanged ∧
    "a.txt" ∉ (sync_folder [("a.txt", ⟨[7], 0⟩)] [("a.txt", ⟨[7], 5⟩)] false).1.updated_files ∧
    alookup (sync_folder [("a.txt", ⟨[7], 0⟩)] [("a.txt", ⟨[7], 5⟩)] false).2 "a.txt" =
      some ⟨[7], 5⟩ :=
  c2_hash_fallback [("a.txt", ⟨[7], 0⟩)] [("a.txt", ⟨[7], 5⟩)] false "a.txt"
    ⟨[7], 0⟩ ⟨[7], 5⟩ (by decide) (by decide) (by decide) (by decide)
    (by decide) (by decide)

/-- The source loop never writes at a key excluded by the ignore rule. -/
theorem foldl_step1_lookup_ignored (df : Tree) (dr : Bool)
    (l : List (String × FileMeta)) (st : Stats) (d : Tree) (p : List String)
    (rp : String) (hig : isIgnoredPath rp = true) :
    alookup (l.foldl (step1 df dr) (st, d, p)).2.1 rp = alookup d rp := by
  induction l generalizing st d p with
  | nil => rfl
  | cons e rest ih =>
    rw [List.foldl_cons]
    rcases hs : step1 df dr (st, d, p) e with ⟨st2, d2, p2⟩
    have hd2 : alookup d2 rp = alookup d rp := by
      by_cases he : e.1 = rp
      · have hcl : classify df e = Action.ignored := by
          rw [classify_eq_ignored_iff, he]
          exact hig
        have : (step1 df dr (st, d, p) e).2.1 = d := by simp [step1, hcl]
        rw [hs] at this
        simp only at this
        rw [this]
      · have := step1_lookup_ne df dr (st, d, p) e rp he
        rw [hs] at this
        exact this
    rw [ih st2 d2 p2, hd2]

/-- C3: protected-file immunity.  A destination path whose basename is
`metadata.db` or `metadata_db_prefs_backup.json` and which is absent from the
source catalog is never listed (hence never counted: the deleted count equals
the length of the deleted list) as deleted and is never removed, in dry-run
and real runs alike. -/
theorem c3_protected_immunity (source dest : Tree) (dr : Bool) (rp : String)
    (hp : isProtectedName (basename rp) = true)
    (hns : rp ∉ (getFiles source).map Prod.fst) :
    rp ∉ (sync_folder source dest dr).1.deleted_files ∧
    (sync_folder source dest dr).1.deleted =
      (sync_folder source dest dr).1.deleted_files.length ∧
    alookup (sync_folder source dest dr).2 rp = alookup dest rp := by
  refine ⟨?_, ?_, ?_⟩
  · rw [sync_folder_eq, foldl_step2_stats, foldl_step1_stats]
    intro hin
    have hin2 : rp ∈ ((getFiles dest).filter (fun e =>
        willDelete (((getFiles source).foldl (step1 (getFiles dest) dr)
          (statsInit, dest, [])).2.2) e.1)).map
        (fun e => if dr then basename e.1 else e.1) := hin
    obtain ⟨m, hmf, hval⟩ := List.mem_map.mp hin2
    obtain ⟨hml, hwd⟩ := List.mem_filter.mp hmf
    have hnp : isProtectedName (basename m.1) = false := by
      revert hwd
      unfold willDelete
      cases isProtectedName (basename m.1) <;> simp
    have hbm : basename rp = basename m.1 := by
      cases dr with
      | true =>
        have hv : basename m.1 = rp := by simpa using hval
        rw [← hv, basename_basename]
      | false =>
        have hv : m.1 = rp := by simpa using hval
        rw [← hv]
    rw [hbm] at hp
    rw [hp] at hnp
    exact absurd hnp (by simp)
  · rw [sync_folder_eq, foldl_step2_stats, foldl_step1_stats]
    show statsInit.deleted + (getFiles dest).countP _ =
      (statsInit.deleted_files ++ _).length
    rw [List.countP_eq_length_filter]
    simp [statsInit]
  · rw [sync_folder_eq]
    have h1 : alookup (((getFiles source).foldl (step1 (getFiles dest) dr)
        (statsInit, dest, [])).2.1) rp = alookup dest rp :=
      foldl_step1_lookup_not_mem _ _ _ _ _ _ _ hns
    have hwd : willDelete (((getFiles source).foldl (step1 (getFiles dest) dr)
        (statsInit, dest, [])).2.2) rp = false := by
      unfold willDelete
      simp [hp]
    rw [foldl_step2_lookup_preserved _ _ _ _ _ _ hwd]
    exact h1

/-- C3 witness: a protected `metadata.db` present only in the destination
survives a real run and is not reported deleted. -/
theorem c3_witness :
    "metadata.db" ∉ (sync_folder [] [("metadata.db", ⟨[1], 0⟩)] false).1.deleted_files ∧
    (sync_folder [] [("metadata.db", ⟨[1], 0⟩)] false).1.deleted =
      (sync_folder [] [("metadata.db", ⟨[1], 0⟩)] false).1.deleted_files.length ∧
    alookup (sync_folder [] [("metadata.db", ⟨[1], 0⟩)] false).2 "metadata.db" =
      alookup [("metadata.db", ⟨[1], 0⟩)] "metadata.db" :=
  c3_protected_immunity [] [("metadata.db", ⟨[1], 0⟩)] false "metadata.db"
    (by decide) (by decide)

/-- C4: amended ignore-set exclusion.  A source file with an ignored extension
that is absent from the destination tree is counted and listed as ignored, is
never classified Add or Update, and is absent from the destination after any
run; and a file whose basename is exactly `metadata.db` is never classified
ignored (it is processed as a normal file). -/
theorem c4_ignore_exclusion (source dest : Tree) (dr : Bool) (rp : String)
    (sm : FileMeta)
    (hs : alookup (getFiles source) rp = some sm)
    (hig : isIgnoredPath rp = true)
    (hnd : alookup dest rp = none) :
    rp ∈ (sync_folder source dest dr).1.ignored_files ∧
    1 ≤ (sync_folder source dest dr).1.ignored ∧
    rp ∉ (sync_folder source dest dr).1.added_files ∧
    rp ∉ (sync_folder source dest dr).1.updated_files ∧
    alookup (sync_folder source dest dr).2 rp = none ∧
    (∀ e : String × FileMeta, basename e.1 = "metadata.db" →
      classify (getFiles dest) e ≠ Action.ignored) := by
  have hmem : (rp, sm) ∈ getFiles source := alookup_some_mem hs
  have hclass : classify (getFiles dest) (rp, sm) = Action.ignored :=
    (classify_eq_ignored_iff _ _).mpr hig
  have hne : ∀ a : Action, a ≠ Action.ignored →
      ∀ x ∈ ((getFiles source).filter
        (fun e => classify (getFiles dest) e == a)).map Prod.fst, x ≠ rp := by
    intro a ha x hx hxrp
    obtain ⟨m, hmf, hfst⟩ := List.mem_map.mp hx
    obtain ⟨hml, hcl⟩ := List.mem_filter.mp hmf
    rw [beq_iff_eq] at hcl
    have higm : isIgnoredPath m.1 = true := by
      rw [hfst, hxrp]
      exact hig
    have : classify (getFiles dest) m = Action.ignored :=
      (classify_eq_ignored_iff _ _).mpr higm
    rw [hcl] at this
    exact ha this
  refine ⟨?_, ?_, ?_, ?_, ?_, ?_⟩
  · rw [sync_folder_eq, foldl_step2_stats, foldl_step1_stats]
    show rp ∈ statsInit.ignored_files ++ ((getFiles source).filter
      (fun e => classify (getFiles dest) e == Action.ignored)).map Prod.fst
    refine List.mem_append.mpr (Or.inr ?_)
    exact List.mem_map.mpr ⟨(rp, sm),
      List.mem_filter.mpr ⟨hmem, by simp [hclass]⟩, rfl⟩
  · rw [sync_folder_eq, foldl_step2_stats, foldl_step1_stats]
    have hpos : 0 < ((getFiles source).filter
        (fun e => classify (getFiles dest) e == Action.ignored)).length :=
      List.length_pos.mpr (List.ne_nil_of_mem
        (List.mem_filter.mpr ⟨hmem, by simp [hclass]⟩))
    show 1 ≤ statsInit.ignored + (getFiles source).countP
      (fun e => classify (getFiles dest) e == Action.ignored)
    rw [List.countP_eq_length_filter]
    have h0 : statsInit.ignored = 0 := rfl
    omega
  · rw [sync_folder_eq, foldl_step2_stats, foldl_step1_stats]
    intro hin
    exact hne Action.add (by simp) rp hin rfl
  · rw [sync_folder_eq, foldl_step2_stats, foldl_step1_stats]
    intro hin
    exact hne Action.update (by simp) rp hin rfl
  · rw [sync_folder_eq]
    apply foldl_step2_lookup_none_mono
    rw [foldl_step1_lookup_ignored _ _ _ _ _ _ _ hig]
    exact hnd
  · intro e he hc
    have higm := (classify_eq_ignored_iff _ _).mp hc
    unfold isIgnoredPath at higm
    rw [he] at higm
    have : isIgnoredName "metadata.db" = false := by decide
    rw [this] at higm
    exact absurd higm (by simp)

/-- C4 counterexample source tree: the protected backup file, whose extension
is in the ignore set. -/
def c4source : Tree := [("metadata_db_prefs_backup.json", ⟨[0], 0⟩)]

/-- C4 counterexample destination tree: the same protected backup file. -/
def c4dest : Tree := [("metadata_db_prefs_backup.json", ⟨[0], 0⟩)]

/-- C4 counterexample: against the claim as stated, a source file with an
ignored extension can appear in the destination after a real run — when it is
the protected backup filename already present there, the deletion pass skips
it. -/
theorem c4_counterexample_check :
    isIgnoredPath "metadata_db_prefs_backup.json" = true ∧
    alookup (getFiles c4source) "metadata_db_prefs_backup.json" = some ⟨[0], 0⟩ ∧
    (sync_folder c4source c4dest false).1.ignored = 1 ∧
    alookup (sync_folder c4source c4dest false).2 "metadata_db_prefs_backup.json" =
      some ⟨[0], 0⟩ := by
  refine ⟨?_, ?_, ?_, ?_⟩ <;> decide

/-- C4 witness: a `prefs.json` source file with no destination copy is
reported ignored, not added, and stays out of the destination. -/
theorem c4_witness :
    "prefs.json" ∈ (sync_folder [("prefs.json", ⟨[5], 0⟩)] [] false).1.ignored_files ∧
    1 ≤ (sync_folder [("prefs.json", ⟨[5], 0⟩)] [] false).1.ignored ∧
    "prefs.json" ∉ (sync_folder [("prefs.json", ⟨[5], 0⟩)] [] false).1.added_files ∧
    "prefs.json" ∉ (sync_folder [("prefs.json", ⟨[5], 0⟩)] [] false).1.updated_files ∧
    alookup (sync_folder [("prefs.json", ⟨[5], 0⟩)] [] false).2 "prefs.json" = none ∧
    (∀ e : String × FileMeta, basename e.1 = "metadata.db" →
      classify (getFiles ([] : Tree)) e ≠ Action.ignored) :=
  c4_ignore_exclusion [("prefs.json", ⟨[5], 0⟩)] [] false "prefs.json" ⟨[5], 0⟩
    (by decide) (by decide) (by decide)

/-- The classification depends on the destination catalog only through the
lookup at the entry's own path. -/
theorem classify_congr (df1 df2 : Tree) (e : String × FileMeta)
    (h : alookup df1 e.1 = alookup df2 e.1) :
    classify df1 e = classify df2 e := by
  unfold classify
  rw [h]

/-- A non-ignored entry whose destination record equals its source record is
classified unchanged (equal size, zero mtime difference). -/
theorem classify_of_lookup_self (df : Tree) (rp : String) (sm : FileMeta)
    (hni : isIgnoredPath rp = false) (h : alookup df rp = some sm) :
    classify df (rp, sm) = Action.unchanged := by
  simp [classify, hni, h, rabs, sub_self]

/-- Per-key value of the destination tree after one real `sync_folder` run,
for a non-ignored key of the (duplicate-free) source catalog. -/
theorem run1_lookup (source dest : Tree)
    (hnd : ((getFiles source).map Prod.fst).Nodup) (rp : String) (sm : FileMeta)
    (hmem : (rp, sm) ∈ getFiles source) (hni : isIgnoredPath rp = false) :
    alookup (sync_folder source dest false).2 rp =
      if classify (getFiles dest) (rp, sm) = Action.add ∨
          classify (getFiles dest) (rp, sm) = Action.update
      then some sm else alookup dest rp := by
  rw [sync_folder_eq]
  have hproc : rp ∈ ((getFiles source).foldl (step1 (getFiles dest) false)
      (statsInit, dest, [])).2.2 := by
    rw [foldl_step1_processed]
    refine List.mem_append.mpr (Or.inr ?_)
    exact List.mem_map.mpr ⟨(rp, sm),
      List.mem_filter.mpr ⟨hmem, by simp [hni]⟩, rfl⟩
  have hwd : willDelete (((getFiles source).foldl (step1 (getFiles dest) false)
      (statsInit, dest, [])).2.2) rp = false := by
    unfold willDelete
    simp [hproc]
  rw [foldl_step2_lookup_preserved _ _ _ _ _ _ hwd]
  rw [foldl_step1_lookup_mem (getFiles dest) false (getFiles source)
    statsInit dest [] rp sm hmem hnd]
  simp

/-- After one real run, every non-ignored source entry is classified
unchanged against the new destination. -/
theorem classify_second_run (source dest : Tree)
    (hnd : ((getFiles source).map Prod.fst).Nodup) (rp : String) (sm : FileMeta)
    (hmem : (rp, sm) ∈ getFiles source) (hni : isIgnoredPath rp = false) :
    classify (getFiles (sync_folder source dest false).2) (rp, sm) =
      Action.unchanged := by
  have hhid : isHiddenName (basename rp) = false := by
    have := (List.mem_filter.mp hmem).2
    revert this
    cases isHiddenName (basename rp) <;> simp
  have hlk2 : alookup (getFiles (sync_folder source dest false).2) rp =
      alookup (sync_folder source dest false).2 rp := by
    rw [alookup_getFiles, if_neg (by simp [hhid])]
  by_cases hau : classify (getFiles dest) (rp, sm) = Action.add ∨
      classify (getFiles dest) (rp, sm) = Action.update
  · apply classify_of_lookup_self _ _ _ hni
    rw [hlk2, run1_lookup source dest hnd rp sm hmem hni, if_pos hau]
  · have hcl1 : classify (getFiles dest) (rp, sm) = Action.unchanged := by
      cases hc : classify (getFiles dest) (rp, sm) with
      | ignored =>
        have := (classify_eq_ignored_iff _ _).mp hc
        rw [this] at hni
        exact absurd hni (by simp)
      | add => exact absurd (Or.inl hc) hau
      | update => exact absurd (Or.inr hc) hau
      | unchanged => rfl
    have heqlk : alookup (getFiles (sync_folder source dest false).2) rp =
        alookup (getFiles dest) rp := by
      rw [hlk2, run1_lookup source dest hnd rp sm hmem hni, if_neg hau,
        alookup_getFiles, if_neg (by simp [hhid])]
    exact (classify_congr _ _ (rp, sm) heqlk).trans hcl1

/-- C5: idempotence.  Running a real (non-dry-run) sync twice in succession
with no intervening changes yields, on the second run, zero added, updated and
deleted actions, with every source catalog file counted either unchanged or
ignored. -/
theorem c5_idempotence (source dest : Tree)
    (hnd : ((getFiles source).map Prod.fst).Nodup) :
    (sync_folder source (sync_folder source dest false).2 false).1.added = 0 ∧
    (sync_folder source (sync_folder source dest false).2 false).1.updated = 0 ∧
    (sync_folder source (sync_folder source dest false).2 false).1.deleted = 0 ∧
    (sync_folder source (sync_folder source dest false).2 false).1.unchanged +
      (sync_folder source (sync_folder source dest false).2 false).1.ignored =
      (getFiles source).length := by
  have hcl2 : ∀ e ∈ getFiles source,
      classify (getFiles (sync_folder source dest false).2) e =
        (if isIgnoredPath e.1 then Action.ignored else Action.unchanged) := by
    intro e he
    by_cases hig : isIgnoredPath e.1
    · rw [if_pos hig]
      exact (classify_eq_ignored_iff _ _).mpr hig
    · rw [if_neg hig]
      have hig2 : isIgnoredPath e.1 = false := by
        revert hig
        cases isIgnoredPath e.1 <;> simp
      exact classify_second_run source dest hnd e.1 e.2 he hig2
  have hproc1 : ∀ dest2 : Tree,
      ((getFiles source).foldl (step1 (getFiles dest2) false)
        (statsInit, dest2, [])).2.2 =
      ((getFiles source).filter (fun e => !(isIgnoredPath e.1))).map Prod.fst := by
    intro dest2
    rw [foldl_step1_processed]
    simp
  refine ⟨?_, ?_, ?_, ?_⟩
  · rw [sync_folder_eq, foldl_step2_stats, foldl_step1_stats]
    show statsInit.added + (getFiles source).countP
      (fun e => classify (getFiles (sync_folder source dest false).2) e ==
        Action.add) = 0
    have hz : (getFiles source).countP
        (fun e => classify (getFiles (sync_folder source dest false).2) e ==
          Action.add) = 0 := by
      rw [List.countP_eq_zero]
      intro e he
      rw [hcl2 e he]
      by_cases hig : isIgnoredPath e.1 <;> simp [hig]
    rw [hz]
    rfl
  · rw [sync_folder_eq, foldl_step2_stats, foldl_step1_stats]
    show statsInit.updated + (getFiles source).countP
      (fun e => classify (getFiles (sync_folder source dest false).2) e ==
        Action.update) = 0
    have hz : (getFiles source).countP
        (fun e => classify (getFiles (sync_folder source dest false).2) e ==
          Action.update) = 0 := by
      rw [List.countP_eq_zero]
      intro e he
      rw [hcl2 e he]
      by_cases hig : isIgnoredPath e.1 <;> simp [hig]
    rw [hz]
    rfl
  · rw [sync_folder_eq, foldl_step2_stats, foldl_step1_stats]
    show statsInit.deleted + (getFiles (sync_folder source dest false).2).countP
      (fun e => willDelete (((getFiles source).foldl
        (step1 (getFiles (sync_folder source dest false).2) false)
        (statsInit, (sync_folder source dest false).2, [])).2.2) e.1) = 0
    have hz : (getFiles (sync_folder source dest false).2).countP
        (fun e => willDelete (((getFiles source).foldl
          (step1 (getFiles (sync_folder source dest false).2) false)
          (statsInit, (sync_folder source dest false).2, [])).2.2) e.1) = 0 := by
      rw [List.countP_eq_zero]
      intro e he
      rw [hproc1]
      intro hwdel
      have hwd : willDelete (((getFiles source).filter
          (fun x => !(isIgnoredPath x.1))).map Prod.fst) e.1 = true := hwdel
      have hnotproc : e.1 ∉ ((getFiles source).filter
          (fun x => !(isIgnoredPath x.1))).map Prod.fst := by
        revert hwd
        unfold willDelete
        by_cases hm : e.1 ∈ ((getFiles source).filter
            (fun x => !(isIgnoredPath x.1))).map Prod.fst <;> simp [hm]
      have hnprot : isProtectedName (basename e.1) = false := by
        revert hwd
        unfold willDelete
        cases isProtectedName (basename e.1) <;> simp
      -- e is a live destination entry after run 1
      have hmemd1 : (e.1, e.2) ∈ (sync_folder source dest false).2 :=
        (List.mem_filter.mp he).1
      have hlive : alookup (sync_folder source dest false).2 e.1 ≠ none :=
        alookup_isSome_of_mem hmemd1
      have hhid : isHiddenName (basename e.1) = false := by
        have := (List.mem_filter.mp he).2
        revert this
        cases isHiddenName (basename e.1) <;> simp
      -- the key is not written by phase 1 of run 1
      have hphase1 : alookup (((getFiles source).foldl
          (step1 (getFiles dest) false) (statsInit, dest, [])).2.1) e.1 =
          alookup dest e.1 := by
        by_cases hmem : e.1 ∈ (getFiles source).map Prod.fst
        · obtain ⟨m, hml, hfst⟩ := List.mem_map.mp hmem
          have higm : isIgnoredPath m.1 = true := by
            rcases hb : isIgnoredPath m.1 with _ | _
            · exfalso
              apply hnotproc
              rw [← hfst]
              exact List.mem_map.mpr ⟨m, List.mem_filter.mpr ⟨hml, by simp [hb]⟩, rfl⟩
            · rfl
          have hige : isIgnoredPath e.1 = true := by
            rw [← hfst]
            exact higm
          exact foldl_step1_lookup_ignored _ _ _ _ _ _ _ hige
        · exact foldl_step1_lookup_not_mem _ _ _ _ _ _ _ hmem
      -- run 1 must have removed or never had the key: contradiction
      rcases hdl : alookup dest e.1 with _ | dm
      · apply hlive
        rw [sync_folder_eq]
        apply foldl_step2_lookup_none_mono
        rw [hphase1]
        exact hdl
      · have hmemdf : e.1 ∈ (getFiles dest).map Prod.fst := by
          have : alookup (getFiles dest) e.1 = some dm := by
            rw [alookup_getFiles, if_neg (by simp [hhid])]
            exact hdl
          exact List.mem_map.mpr ⟨(e.1, dm), alookup_some_mem this, rfl⟩
        apply hlive
        rw [sync_folder_eq]
        apply foldl_step2_lookup_none
        · rw [hproc1]
          unfold willDelete
          simp [hnotproc, hnprot]
        · exact hmemdf
    rw [hz]
    rfl
  · rw [sync_folder_eq, foldl_step2_stats, foldl_step1_stats]
    show (statsInit.unchanged + (getFiles source).countP
        (fun e => classify (getFiles (sync_folder source dest false).2) e ==
          Action.unchanged)) +
      (statsInit.ignored + (getFiles source).countP
        (fun e => classify (getFiles (sync_folder source dest false).2) e ==
          Action.ignored)) = (getFiles source).length
    have hpart := countP_partition (getFiles source)
      (fun e => classify (getFiles (sync_folder source dest false).2) e ==
        Action.unchanged)
      (fun e => classify (getFiles (sync_folder source dest false).2) e ==
        Action.ignored)
      (by
        intro e he
        have hce := hcl2 e he
        by_cases hig : isIgnoredPath e.1
        · right
          constructor <;> simp [hce, hig]
        · left
          constructor <;> simp [hce, hig])
    have h1 : statsInit.unchanged = 0 := rfl
    have h2 : statsInit.ignored = 0 := rfl
    omega

/-- C5 witness: two consecutive real runs over a two-file library (one book
file, one ignored `.json`) against a destination holding a stale copy and an
orphan. -/
theorem c5_witness :
    (sync_folder [("b/x.epub", ⟨[1, 2], 10⟩), ("p.json", ⟨[3], 0⟩)]
      (sync_folder [("b/x.epub", ⟨[1, 2], 10⟩), ("p.json", ⟨[3], 0⟩)]
        [("b/x.epub", ⟨[9], 3⟩), ("orphan.txt", ⟨[4], 0⟩)] false).2 false).1.added = 0 ∧
    (sync_folder [("b/x.epub", ⟨[1, 2], 10⟩), ("p.json", ⟨[3], 0⟩)]
      (sync_folder [("b/x.epub", ⟨[1, 2], 10⟩), ("p.json", ⟨[3], 0⟩)]
        [("b/x.epub", ⟨[9], 3⟩), ("orphan.txt", ⟨[4], 0⟩)] false).2 false).1.updated = 0 ∧
    (sync_folder [("b/x.epub", ⟨[1, 2], 10⟩), ("p.json", ⟨[3], 0⟩)]
      (sync_folder [("b/x.epub", ⟨[1, 2], 10⟩), ("p.json", ⟨[3], 0⟩)]
        [("b/x.epub", ⟨[9], 3⟩), ("orphan.txt", ⟨[4], 0⟩)] false).2 false).1.deleted = 0 ∧
    (sync_folder [("b/x.epub", ⟨[1, 2], 10⟩), ("p.json", ⟨[3], 0⟩)]
      (sync_folder [("b/x.epub", ⟨[1, 2], 10⟩), ("p.json", ⟨[3], 0⟩)]
        [("b/x.epub", ⟨[9], 3⟩), ("orphan.txt", ⟨[4], 0⟩)] false).2 false).1.unchanged +
    (sync_folder [("b/x.epub", ⟨[1, 2], 10⟩), ("p.json", ⟨[3], 0⟩)]
      (sync_folder [("b/x.epub", ⟨[1, 2], 10⟩), ("p.json", ⟨[3], 0⟩)]
        [("b/x.epub", ⟨[9], 3⟩), ("orphan.txt", ⟨[4], 0⟩)] false).2 false).1.ignored =
      (getFiles [("b/x.epub", ⟨[1, 2], 10⟩), ("p.json", ⟨[3], 0⟩)]).length :=
  c5_idempotence [("b/x.epub", ⟨[1, 2], 10⟩), ("p.json", ⟨[3], 0⟩)]
    [("b/x.epub", ⟨[9], 3⟩), ("orphan.txt", ⟨[4], 0⟩)] (by decide)

/-! ### History retention lemmas -/

theorem save_history_eq_lastN (l : List SyncHistoryEntry) :
    save_history l = lastN max_entries l := by
  unfold save_history lastN
  by_cases h : l.length > max_entries
  · rw [if_pos h]
  · rw [if_neg h]
    have h0 : l.length - max_entries = 0 := by omega
    rw [h0, List.drop_zero]

theorem lastN_length_le {α : Type} (n : Nat) (l : List α) :
    (lastN n l).length ≤ n := by
  unfold lastN
  rw [List.length_drop]
  omega

theorem lastN_append_lastN {α : Type} (n : Nat) (a b : List α) :
    lastN n (lastN n a ++ b) = lastN n (a ++ b) := by
  unfold lastN
  rw [List.length_append, List.length_drop, List.length_append,
    ← List.drop_append_of_le_length (by omega), List.drop_drop]
  congr 1
  omega

/-- C6: history retention cap.  Every `add_sync_entry` leaves at most
`max_entries` (100) stored entries, and appending any sequence of entries to
an empty store keeps exactly the most recent 100 of the appended sequence, in
append order (FIFO eviction of the oldest). -/
theorem c6_history_retention :
    (∀ (store : List SyncHistoryEntry) (e : SyncHistoryEntry),
      (add_sync_entry store e).length ≤ max_entries) ∧
    (∀ es : List SyncHistoryEntry,
      es.foldl add_sync_entry [] = lastN max_entries es) := by
  constructor
  · intro store e
    unfold add_sync_entry
    rw [save_history_eq_lastN]
    exact lastN_length_le _ _
  · have key : ∀ (es a : List SyncHistoryEntry),
        List.foldl add_sync_entry (lastN max_entries a) es =
          lastN max_entries (a ++ es) := by
      intro es
      induction es with
      | nil =>
        intro a
        simp
      | cons e rest ih =>
        intro a
        rw [List.foldl_cons]
        have hstep : add_sync_entry (lastN max_entries a) e =
            lastN max_entries (a ++ [e]) := by
          unfold add_sync_entry
          rw [save_history_eq_lastN, lastN_append_lastN]
        rw [hstep, ih (a ++ [e]), List.append_assoc]
        rfl
    intro es
    have h := key es []
    rw [show lastN max_entries ([] : List SyncHistoryEntry) = [] from rfl] at h
    rw [List.nil_append] at h
    exact h

/-! ### History query lemmas -/

theorem sortDesc_perm (entries : List SyncHistoryEntry) :
    (sortDesc entries).Perm entries :=
  List.mergeSort_perm entries _

theorem sortDesc_sorted (entries : List SyncHistoryEntry) :
    (sortDesc entries).Pairwise (fun a b => b.timestamp ≤ a.timestamp) := by
  unfold sortDesc
  apply List.Pairwise.imp ?_ (List.sorted_mergeSort ?_ ?_ entries)
  · intro a b h
    exact of_decide_eq_true h
  · intro a b c hab hbc
    simp only [decide_eq_true_eq] at *
    omega
  · intro a b
    simp only [Bool.or_eq_true, decide_eq_true_eq]
    omega

/-- C10: a `get_history` call with limit 0 returns the entire history,
most-recent-first (the `if limit:` falsy test skips the slice), exactly as a
call with no limit does — not the empty list. -/
theorem c10_limit_zero_full_history (entries : List SyncHistoryEntry) :
    get_history entries (some 0) = get_history entries none ∧
    (get_history entries (some 0)).Perm entries ∧
    (get_history entries (some 0)).length = entries.length ∧
    (get_history entries (some 0)).Pairwise
      (fun a b => b.timestamp ≤ a.timestamp) := by
  have h1 : get_history entries (some 0) = sortDesc entries := by
    simp [get_history]
  have h2 : get_history entries none = sortDesc entries := rfl
  refine ⟨by rw [h1, h2], ?_, ?_, ?_⟩
  · rw [h1]
    exact sortDesc_perm entries
  · rw [h1]
    exact (sortDesc_perm entries).length_eq
  · rw [h1]
    exact sortDesc_sorted entries

/-! ### Statistics lemmas -/

theorem latestFold_mem (rest : List SyncHistoryEntry) :
    ∀ e : SyncHistoryEntry,
      rest.foldl (fun acc x => if acc.timestamp < x.timestamp then x else acc) e ∈
        e :: rest := by
  induction rest with
  | nil =>
    intro e
    simp
  | cons x rs ih =>
    intro e
    rw [List.foldl_cons]
    have h := ih (if e.timestamp < x.timestamp then x else e)
    rcases List.mem_cons.mp h with hh | ht
    · rw [hh]
      by_cases hc : e.timestamp < x.timestamp <;> simp [hc]
    · exact List.mem_cons_of_mem _ (List.mem_cons_of_mem _ ht)

theorem latestFold_max (rest : List SyncHistoryEntry) :
    ∀ (e x : SyncHistoryEntry), x ∈ e :: rest →
      x.timestamp ≤
        (rest.foldl (fun acc y => if acc.timestamp < y.timestamp then y else acc)
          e).timestamp := by
  induction rest with
  | nil =>
    intro e x hx
    rcases List.mem_cons.mp hx with hh | ht
    · subst hh
      simp
    · simp at ht
  | cons y rs ih =>
    intro e x hx
    rw [List.foldl_cons]
    have hacc : e.timestamp ≤ (if e.timestamp < y.timestamp then y else e).timestamp ∧
        y.timestamp ≤ (if e.timestamp < y.timestamp then y else e).timestamp := by
      by_cases hc : e.timestamp < y.timestamp <;> simp [hc] <;> omega
    rcases List.mem_cons.mp hx with hh | ht
    · subst hh
      exact le_trans hacc.1 (ih _ _ (List.mem_cons_self _ _))
    · rcases List.mem_cons.mp ht with hh2 | ht2
      · subst hh2
        exact le_trans hacc.2 (ih _ _ (List.mem_cons_self _ _))
      · exact ih _ x (List.mem_cons_of_mem _ ht2)

theorem roundHalfEven_bounds (q : Rat) :
    q - 1/2 ≤ (roundHalfEven q : Rat) ∧ (roundHalfEven q : Rat) ≤ q + 1/2 := by
  have h0 : ((⌊q⌋ : Int) : Rat) ≤ q := Int.floor_le q
  have h1 : q < ((⌊q⌋ : Int) : Rat) + 1 := Int.lt_floor_add_one q
  unfold roundHalfEven
  split_ifs with hA hB hC <;> constructor <;> push_cast <;> linarith

theorem round2_bounds (q : Rat) :
    q - 1/200 ≤ round2 q ∧ round2 q ≤ q + 1/200 := by
  obtain ⟨h1, h2⟩ := roundHalfEven_bounds (q * 100)
  unfold round2
  constructor <;> nlinarith

theorem round2_zero : round2 0 = 0 := by
  unfold round2 roundHalfEven
  norm_num

/-- C7: amended statistics.  `get_stats` reports the total entry count, the
counts of completed and failed entries, an entry attaining the maximum
timestamp as `last_sync` (none for the empty history), and as
`average_duration` the mean duration over completed entries rounded to two
decimal places (ties to even) — hence within 1/200 of the exact mean — and
zero when no completed entry exists. -/
theorem c7_get_stats (entries : List SyncHistoryEntry) :
    (get_stats entries).total_syncs = entries.length ∧
    (get_stats entries).successful_syncs =
      (entries.filter (fun x => x.status == "completed")).length ∧
    (get_stats entries).failed_syncs =
      (entries.filter (fun x => x.status == "failed")).length ∧
    (entries = [] → (get_stats entries).last_sync = none) ∧
    (entries ≠ [] → ∃ l, (get_stats entries).last_sync = some l ∧ l ∈ entries ∧
      ∀ x ∈ entries, x.timestamp ≤ l.timestamp) ∧
    (get_stats entries).average_duration = round2 (completedMean entries) ∧
    completedMean entries - 1/200 ≤ (get_stats entries).average_duration ∧
    (get_stats entries).average_duration ≤ completedMean entries + 1/200 ∧
    ((entries.filter (fun x => x.status == "completed")).length = 0 →
      (get_stats entries).average_duration = 0) := by
  cases entries with
  | nil =>
    refine ⟨rfl, rfl, rfl, fun _ => rfl, fun h => absurd rfl h, ?_, ?_, ?_, fun _ => rfl⟩
    · show (0 : Rat) = round2 (completedMean [])
      rw [show completedMean [] = 0 from rfl, round2_zero]
    · rw [show completedMean [] = 0 from rfl]
      norm_num [get_stats]
    · rw [show completedMean [] = 0 from rfl]
      norm_num [get_stats]
  | cons e rest =>
    have havg : (get_stats (e :: rest)).average_duration =
        round2 (completedMean (e :: rest)) := rfl
    refine ⟨rfl, rfl, rfl, by simp, ?_, havg, ?_, ?_, ?_⟩
    · intro _
      refine ⟨_, rfl, ?_, ?_⟩
      · exact latestFold_mem rest e
      · exact fun x hx => latestFold_max rest e x hx
    · rw [havg]
      exact (round2_bounds _).1
    · rw [havg]
      exact (round2_bounds _).2
    · intro hz
      rw [havg]
      have hcm : completedMean (e :: rest) = 0 := by
        unfold completedMean
        rw [if_neg (by omega)]
      rw [hcm, round2_zero]

/-- C7 counterexample entry: one completed run of duration 1/8 second. -/
def c7entry : SyncHistoryEntry := ⟨0, "sync", "completed", 1/8, none⟩

/-- C7 counterexample: against the claim, `average_duration` is not the mean
of completed durations — for a single completed entry of duration 1/8 it is
`round(0.125, 2) = 0.12`, not 0.125 (ties round to even). -/
theorem c7_counterexample_check :
    completedMean [c7entry] = 1/8 ∧
    (get_stats [c7entry]).average_duration = 12/100 ∧
    (get_stats [c7entry]).average_duration ≠ completedMean [c7entry] := by
  have hmean : completedMean [c7entry] = 1/8 := by
    unfold completedMean c7entry
    norm_num
  have hfloor : (⌊(1/8 : Rat) * 100⌋ : Int) = 12 := by
    norm_num [Int.floor_eq_iff]
  have havg : (get_stats [c7entry]).average_duration = 12/100 := by
    have h : (get_stats [c7entry]).average_duration =
        round2 (completedMean [c7entry]) := rfl
    rw [h, hmean]
    unfold round2 roundHalfEven
    rw [hfloor]
    norm_num
  refine ⟨hmean, havg, ?_⟩
  rw [havg, hmean]
  norm_num

/-- C7 sample history for the witness: one completed run, one failed run. -/
def c7entries : List SyncHistoryEntry :=
  [⟨5, "sync", "completed", 2, none⟩, ⟨3, "sync", "failed", 4, some "boom"⟩]

/-- C7 witness: the amended theorem applied to a concrete two-entry history. -/
theorem c7_witness :
    (get_stats c7entries).total_syncs = 2 ∧
    (get_stats c7entries).successful_syncs = 1 ∧
    (get_stats c7entries).failed_syncs = 1 ∧
    (∃ l, (get_stats c7entries).last_sync = some l ∧ l ∈ c7entries ∧
      ∀ x ∈ c7entries, x.timestamp ≤ l.timestamp) ∧
    (get_stats c7entries).average_duration = round2 (completedMean c7entries) := by
  obtain ⟨h1, h2, h3, _, h5, h6, _⟩ := c7_get_stats c7entries
  exact ⟨h1.trans (by rfl), h2.trans (by rfl), h3.trans (by rfl),
    h5 (by simp [c7entries]), h6⟩

/-! ### Orchestration (sync_all) lemmas -/

theorem dictInsert_mem_keys (d : List (String × ReplicaResult)) (k : String)
    (v : ReplicaResult) (r : String) :
    r ∈ (dictInsert d k v).map Prod.fst ↔ r ∈ d.map Prod.fst ∨ r = k := by
  unfold dictInsert
  by_cases hany : d.any (fun e => e.1 == k)
  · rw [if_pos hany]
    have hkeys : (d.map (fun e => if e.1 = k then (k, v) else e)).map Prod.fst =
        d.map Prod.fst := by
      rw [List.map_map]
      apply List.map_congr_left
      intro e _
      by_cases he : e.1 = k
      · simp [he]
      · simp [he]
    rw [hkeys]
    have hk : k ∈ d.map Prod.fst := by
      rw [List.any_eq_true] at hany
      obtain ⟨e0, he0, hk0⟩ := hany
      exact List.mem_map.mpr ⟨e0, he0, beq_iff_eq.mp hk0⟩
    constructor
    · exact fun h => Or.inl h
    · rintro (h | rfl)
      · exact h
      · exact hk
  · rw [if_neg hany]
    simp

theorem dictInsert_keys_nodup (d : List (String × ReplicaResult)) (k : String)
    (v : ReplicaResult) (hnd : (d.map Prod.fst).Nodup) :
    ((dictInsert d k v).map Prod.fst).Nodup := by
  unfold dictInsert
  by_cases hany : d.any (fun e => e.1 == k)
  · rw [if_pos hany]
    have hkeys : (d.map (fun e => if e.1 = k then (k, v) else e)).map Prod.fst =
        d.map Prod.fst := by
      rw [List.map_map]
      apply List.map_congr_left
      intro e _
      by_cases he : e.1 = k
      · simp [he]
      · simp [he]
    rw [hkeys]
    exact hnd
  · rw [if_neg hany]
    rw [List.map_append, List.nodup_append]
    refine ⟨hnd, by simp, ?_⟩
    intro x hx
    simp only [List.map_cons, List.map_nil, List.mem_singleton]
    intro hxk
    subst hxk
    apply hany
    rw [List.any_eq_true]
    obtain ⟨e0, he0, hk0⟩ := List.mem_map.mp hx
    exact ⟨e0, he0, beq_iff_eq.mpr hk0⟩

theorem alookup_dictInsert_self (d : List (String × ReplicaResult))
    (k : String) (v : ReplicaResult) :
    alookup (dictInsert d k v) k = some v := by
  unfold dictInsert
  by_cases hany : d.any (fun e => e.1 == k)
  · rw [if_pos hany]
    rw [List.any_eq_true] at hany
    obtain ⟨e0, he0, hk0⟩ := hany
    exact alookup_replaceMap_self d k v ⟨e0, he0, beq_iff_eq.mp hk0⟩
  · rw [if_neg hany, alookup_append]
    have hnone : alookup d k = none := by
      apply alookup_eq_none_of_not_mem
      intro hmem
      apply hany
      rw [List.any_eq_true]
      obtain ⟨e0, he0, hk0⟩ := List.mem_map.mp hmem
      exact ⟨e0, he0, beq_iff_eq.mpr hk0⟩
    rw [hnone]
    simp [alookup]

theorem alookup_dictInsert_ne (d : List (String × ReplicaResult))
    (k k' : String) (v : ReplicaResult) (h : k' ≠ k) :
    alookup (dictInsert d k v) k' = alookup d k' := by
  unfold dictInsert
  by_cases hany : d.any (fun e => e.1 == k)
  · rw [if_pos hany]
    exact alookup_replaceMap_ne d k k' v h
  · rw [if_neg hany, alookup_append]
    cases hl : alookup d k' with
    | some v0 => simp
    | none =>
      have hkk : ¬ (k = k') := fun hc => h hc.symm
      simp [alookup, hkk]

theorem sync_all_invariant (run : String → Except String Stats)
    (l : List String) :
    ∀ acc : List (String × ReplicaResult),
      (acc.map Prod.fst).Nodup →
      (∀ r ∈ acc.map Prod.fst, alookup acc r = some (resultOf run r)) →
      ((l.foldl (fun a r => dictInsert a r (resultOf run r)) acc).map
        Prod.fst).Nodup ∧
      (∀ r, r ∈ (l.foldl (fun a r => dictInsert a r (resultOf run r)) acc).map
          Prod.fst ↔ r ∈ acc.map Prod.fst ∨ r ∈ l) ∧
      (∀ r ∈ (l.foldl (fun a r => dictInsert a r (resultOf run r)) acc).map
          Prod.fst,
        alookup (l.foldl (fun a r => dictInsert a r (resultOf run r)) acc) r =
          some (resultOf run r)) := by
  induction l with
  | nil =>
    intro acc h1 h2
    refine ⟨h1, ?_, h2⟩
    intro r
    simp
  | cons r0 rest ih =>
    intro acc h1 h2
    rw [List.foldl_cons]
    have h1' := dictInsert_keys_nodup acc r0 (resultOf run r0) h1
    have h2' : ∀ r ∈ (dictInsert acc r0 (resultOf run r0)).map Prod.fst,
        alookup (dictInsert acc r0 (resultOf run r0)) r =
          some (resultOf run r) := by
      intro r hr
      by_cases hrr : r = r0
      · subst hrr
        exact alookup_dictInsert_self acc r (resultOf run r)
      · rw [alookup_dictInsert_ne acc r0 r _ hrr]
        rcases (dictInsert_mem_keys acc r0 _ r).mp hr with hmem | heq
        · exact h2 r hmem
        · exact absurd heq hrr
    obtain ⟨g1, g2, g3⟩ := ih (dictInsert acc r0 (resultOf run r0)) h1' h2'
    refine ⟨g1, ?_, g3⟩
    intro r
    rw [g2 r, dictInsert_mem_keys]
    constructor
    · rintro ((h | rfl) | h)
      · exact Or.inl h
      · exact Or.inr (List.mem_cons_self _ _)
      · exact Or.inr (List.mem_cons_of_mem _ h)
    · rintro (h | h)
      · exact Or.inl (Or.inl h)
      · rcases List.mem_cons.mp h with rfl | hh
        · exact Or.inl (Or.inr rfl)
        · exact Or.inr hh

/-- C8: per-replica failure isolation in `sync_all`.  The results dictionary
has duplicate-free keys that are exactly the configured replicas, every
configured replica (including every one after a failing one) carries a
result, and a replica whose processing raises an exception carries an error
result with that exception's message. -/
theorem c8_replica_isolation (run : String → Except String Stats)
    (replicas : List String) :
    ((sync_all run replicas).map Prod.fst).Nodup ∧
    (∀ r, r ∈ (sync_all run replicas).map Prod.fst ↔ r ∈ replicas) ∧
    (∀ r ∈ replicas, alookup (sync_all run replicas) r =
      some (resultOf run r)) ∧
    (∀ r ∈ replicas, ∀ msg, run r = Except.error msg →
      alookup (sync_all run replicas) r = some (ReplicaResult.failed msg)) := by
  obtain ⟨g1, g2, g3⟩ := sync_all_invariant run replicas []
    (by simp) (by simp)
  have hkeys : ∀ r, r ∈ (sync_all run replicas).map Prod.fst ↔ r ∈ replicas := by
    intro r
    unfold sync_all
    rw [g2 r]
    simp
  refine ⟨g1, hkeys, ?_, ?_⟩
  · intro r hr
    exact g3 r ((hkeys r).mpr hr)
  · intro r hr msg hmsg
    have hres := g3 r ((hkeys r).mpr hr)
    unfold sync_all
    rw [hres]
    unfold resultOf
    rw [hmsg]

/-- C8 witness run function: processing the replica `/bad` raises an
exception with message `unreachable`; every other replica succeeds. -/
def c8run (r : String) : Except String Stats :=
  if r = "/bad" then Except.error "unreachable" else Except.ok statsInit

/-- C8 witness: with replicas `/a`, `/bad`, `/b`, the failing replica carries
its error message and the later replica still carries a stats result. -/
theorem c8_witness :
    alookup (sync_all c8run ["/a", "/bad", "/b"]) "/bad" =
      some (ReplicaResult.failed "unreachable") ∧
    alookup (sync_all c8run ["/a", "/bad", "/b"]) "/b" =
      some (ReplicaResult.stats statsInit) ∧
    ((sync_all c8run ["/a", "/bad", "/b"]).map Prod.fst).Nodup := by
  obtain ⟨g1, _, g3, g4⟩ := c8_replica_isolation c8run ["/a", "/bad", "/b"]
  refine ⟨?_, ?_, g1⟩
  · exact g4 "/bad" (by simp) "unreachable" (by rfl)
  · exact (g3 "/b" (by simp)).trans (by rfl)

/-! ### Run-coordinator lemmas -/

theorem stepEvent_invariant (evs : List SyncEvent) :
    ∀ p : ProcState,
      promptStartB p evs = true →
      p.activeRuns = (if p.status.in_progress then 1 else 0) →
      p.pendingRuns ≤ 1 →
      (p.pendingRuns = 1 → p.status.in_progress = false) →
      (evs.foldl stepEvent p).activeRuns ≤ 1 := by
  induction evs with
  | nil =>
    intro p _ hp1 _ _
    simp only [List.foldl_nil]
    rw [hp1]
    by_cases hb : p.status.in_progress
    · rw [if_pos hb]
    · rw [if_neg hb]
      omega
  | cons ev rest ih =>
    intro p hprompt hp1 hp2 hp3
    rw [List.foldl_cons]
    cases ev with
    | trigger =>
      have hpend : p.pendingRuns = 0 := by
        simp only [promptStartB, Bool.and_eq_true, decide_eq_true_eq] at hprompt
        exact hprompt.1
      have hrest : promptStartB (stepEvent p SyncEvent.trigger) rest = true := by
        simp only [promptStartB, Bool.and_eq_true] at hprompt
        exact hprompt.2
      by_cases hb : p.status.in_progress
      · have hstep : stepEvent p SyncEvent.trigger = p := by
          simp [stepEvent, hb]
        rw [hstep]
        rw [hstep] at hrest
        exact ih p hrest hp1 hp2 hp3
      · have hstep : stepEvent p SyncEvent.trigger =
            { p with pendingRuns := p.pendingRuns + 1 } := by
          simp [stepEvent, hb]
        rw [hstep]
        rw [hstep] at hrest
        refine ih _ hrest ?_ ?_ ?_
        · exact hp1
        · simp
          omega
        · intro _
          simpa using hb
    | start =>
      have hrest : promptStartB (stepEvent p SyncEvent.start) rest = true := by
        simp only [promptStartB, Bool.and_eq_true] at hprompt
        exact hprompt.2
      by_cases hz : p.pendingRuns = 0
      · have hstep : stepEvent p SyncEvent.start = p := by
          simp [stepEvent, hz]
        rw [hstep]
        rw [hstep] at hrest
        exact ih p hrest hp1 hp2 hp3
      · have hpend1 : p.pendingRuns = 1 := by omega
        have hb : p.status.in_progress = false := hp3 hpend1
        have hact : p.activeRuns = 0 := by
          rw [hp1, hb]
          simp
        have hstep : stepEvent p SyncEvent.start =
            { status := { p.status with in_progress := true },
              pendingRuns := p.pendingRuns - 1,
              activeRuns := p.activeRuns + 1 } := by
          simp [stepEvent, hz]
        rw [hstep]
        rw [hstep] at hrest
        refine ih _ hrest ?_ ?_ ?_
        · simp [hact]
        · simp
          omega
        · intro hc
          simp at hc
          omega
    | finish t =>
      have hrest : promptStartB (stepEvent p (SyncEvent.finish t)) rest = true := by
        simp only [promptStartB, Bool.and_eq_true] at hprompt
        exact hprompt.2
      by_cases hz : p.activeRuns = 0
      · have hstep : stepEvent p (SyncEvent.finish t) = p := by
          simp [stepEvent, hz]
        rw [hstep]
        rw [hstep] at hrest
        exact ih p hrest hp1 hp2 hp3
      · have hb : p.status.in_progress = true := by
          rcases hbb : p.status.in_progress with _ | _
          · rw [hp1, hbb] at hz
            simp at hz
          · rfl
        have hpend0 : p.pendingRuns = 0 := by
          rcases hpp : p.pendingRuns with _ | n
          · rfl
          · have := hp3 (by omega)
            rw [hb] at this
            exact absurd this (by simp)
        have hact1 : p.activeRuns = 1 := by
          rw [hp1, hb]
          simp
        have hstep : stepEvent p (SyncEvent.finish t) =
            { status := { p.status with
                in_progress := false
                last_sync := some t },
              pendingRuns := p.pendingRuns,
              activeRuns := p.activeRuns - 1 } := by
          simp [stepEvent, hz]
        rw [hstep]
        rw [hstep] at hrest
        refine ih _ hrest ?_ ?_ ?_
        · simp [hact1]
        · simpa using hp2
        · intro hc
          rfl

/-- C9 counterexample: the flag is raised only when a scheduled task starts
(line 37), not when the trigger handler schedules it (line 93); so two
triggers handled in the window before either task starts both pass the
line 87 check and schedule runs, and once both tasks start two orchestration
runs are active at once. -/
theorem c9_counterexample_check :
    (([SyncEvent.trigger] : List SyncEvent).foldl stepEvent
      procStateInit).status.in_progress = false ∧
    (([SyncEvent.trigger] : List SyncEvent).foldl stepEvent
      procStateInit).pendingRuns = 1 ∧
    (([SyncEvent.trigger, SyncEvent.trigger] : List SyncEvent).foldl stepEvent
      procStateInit).pendingRuns = 2 ∧
    (([SyncEvent.trigger, SyncEvent.trigger, SyncEvent.start,
        SyncEvent.start] : List SyncEvent).foldl stepEvent
      procStateInit).activeRuns = 2 := by
  refine ⟨?_, ?_, ?_, ?_⟩ <;> decide

/-- C9: amended trigger mutual exclusion.  When the busy flag is set, the
trigger handler answers `already_running` with the last known completion
timestamp, leaves the run state unchanged, and schedules no background task;
and at most one orchestration run is ever active provided every scheduled
task starts (raising the flag at `perform_sync` entry) before the next
trigger is handled — without that scheduling assumption two triggers in the
schedule-to-start window both schedule runs. -/
theorem c9_trigger_already_running (st : SyncStatus)
    (h : st.in_progress = true) :
    trigger_sync st = (⟨"already_running", st.last_sync⟩, st, false) ∧
    (∀ evs : List SyncEvent, promptStartB procStateInit evs = true →
      (evs.foldl stepEvent procStateInit).activeRuns ≤ 1) := by
  constructor
  · unfold trigger_sync
    rw [if_pos h]
  · intro evs hprompt
    exact stepEvent_invariant evs procStateInit hprompt rfl (by decide)
      (fun hc => rfl)

/-- C9 witness: a busy state with a recorded completion time answers
`already_running` without scheduling, and a prompt-start event trace
(trigger, start, trigger-while-busy, finish, trigger, start) never has two
active runs. -/
theorem c9_witness :
    trigger_sync ⟨some 7, true, none, none⟩ =
      (⟨"already_running", some 7⟩, ⟨some 7, true, none, none⟩, false) ∧
    (([SyncEvent.trigger, SyncEvent.start, SyncEvent.trigger,
        SyncEvent.finish 9, SyncEvent.trigger, SyncEvent.start].foldl
        stepEvent procStateInit).activeRuns ≤ 1) := by
  obtain ⟨h1, h2⟩ := c9_trigger_already_running ⟨some 7, true, none, none⟩ rfl
  exact ⟨h1, h2 _ (by decide)⟩

end CalibreSync
